import Mathlib

/-!
# ttf2ugui: conversion of a rasterised font into a uGUI bitmap font

A shallow embedding of `ttf2ugui.c`.  C `int` values are mathematical integers
(glyph metrics are far below the machine range, so no wrap-around is modelled);
bytes are natural numbers reduced modulo 256 where the C code stores into an
`unsigned char` / `UG_U8`.  C integer division and remainder truncate towards
zero, hence `Int.tdiv` and `Int.tmod`.  Operations whose behaviour C leaves
undefined (a store outside the allocated block, a shift by a negative amount)
end the run with `Halt.undefined`; `exit(n)` ends it with `Halt.exit n`.
-/

namespace Ttf2ugui

set_option maxRecDepth 100000

/-- The helper `static int max(int a, int b)`. -/
def max (a b : Int) : Int :=
  if a > b then a else b

/-- The fields of `face->glyph` that the converter reads after `FT_Load_Char`.
`buffer` gives the byte found at each offset from `bitmap.buffer`. -/
structure Glyph where
  rows : Int
  width : Int
  pitch : Int
  buffer : Int → Nat
  bitmap_left : Int
  bitmap_top : Int
  advance_x : Int

/-- How a run (or a function that may call `exit`) stops early. -/
inductive Halt where
  | exit (code : Nat)
  | undefined
  deriving DecidableEq, Repr

/-- Equality of results of a halting computation can be decided. -/
instance instDecidableEqExcept {ε α : Type} [DecidableEq ε] [DecidableEq α] :
    DecidableEq (Except ε α)
  | .ok a, .ok b => if h : a = b then isTrue (by rw [h]) else isFalse (fun e => h (by cases e; rfl))
  | .error a, .error b =>
    if h : a = b then isTrue (by rw [h]) else isFalse (fun e => h (by cases e; rfl))
  | .ok _, .error _ => isFalse (fun e => by cases e)
  | .error _, .ok _ => isFalse (fun e => by cases e)

/-- The two loops of `convertFont` that call `FT_Load_Char`. -/
inductive Pass where
  | sizing
  | packing
  deriving DecidableEq, Repr

/-- The FreeType library as seen by `convertFont`: the error codes of the set-up
calls (0 means success) and the glyph slot produced by `FT_Load_Char` in each
pass (`none` when the call reports an error). -/
structure FreeType where
  initFreeType : Int
  newFace : String → Int
  setCharSize : Rat → Int → Int
  setPixelSizes : Rat → Int
  loadChar : Pass → Int → Option Glyph

/-- The pixel-format tag of `ugui.h`. -/
inductive FONT_TYPE where
  | FONT_TYPE_1BPP
  | FONT_TYPE_8BPP
  deriving DecidableEq, Repr

/-- The `UG_FONT` record; `p` and `widths` are the two heap blocks, byte by byte. -/
structure UG_FONT where
  p : List Nat
  font_type : FONT_TYPE
  char_width : Int
  char_height : Int
  start_char : Int
  end_char : Int
  widths : List Nat
  deriving DecidableEq, Repr

/-- The constant `minChar`. -/
def minChar : Int := 32

/-- The constant `maxChar`. -/
def maxChar : Int := 126

/-- The values `lo, lo+1, ..., lo+n-1`. -/
def upFrom (lo : Int) : Nat → List Int
  | 0 => []
  | n + 1 => lo :: upFrom (lo + 1) n

/-- The values taken by `x` in `for (x = lo; x < hi; x++)`. -/
def interval (lo hi : Int) : List Int :=
  upFrom lo (hi - lo).toNat

/-- A `for` loop whose body may stop the run: the body is run on each index in
turn, threading the state, until one of them halts. -/
def forLoop {σ : Type} (body : Int → σ → Except Halt σ) : List Int → σ → Except Halt σ
  | [], s => .ok s
  | x :: xs, s =>
    match body x s with
    | .ok t => forLoop body xs t
    | .error e => .error e

/-- The locals `maxWidth`, `maxAscent`, `maxDescent` of `convertFont`. -/
structure Sizing where
  maxWidth : Int
  maxAscent : Int
  maxDescent : Int
  deriving DecidableEq, Repr

/-- The per-glyph `descent` of the sizing loop. -/
def glyphDescent (g : Glyph) : Int :=
  max 0 (g.rows - g.bitmap_top)

/-- The per-glyph `ascent` of the sizing loop. -/
def glyphAscent (g : Glyph) : Int :=
  max 0 (max g.bitmap_top g.rows - glyphDescent g)

/-- The accumulation done by one iteration of the sizing loop once the glyph is loaded. -/
def sizeGlyph (g : Glyph) (s : Sizing) : Sizing :=
  let descent := glyphDescent g
  let ascent := glyphAscent g
  ⟨if g.width > s.maxWidth then g.width else s.maxWidth,
   if ascent > s.maxAscent then ascent else s.maxAscent,
   if descent > s.maxDescent then descent else s.maxDescent⟩

/-- One iteration of the sizing loop: load the glyph, `exit(1)` on error. -/
def sizingBody (ft : FreeType) (ch : Int) (s : Sizing) : Except Halt Sizing :=
  match ft.loadChar Pass.sizing ch with
  | none => .error (Halt.exit 1)
  | some g => .ok (sizeGlyph g s)

/-- The sizing loop `for (ch = minChar; ch <= maxChar; ch++)`. -/
def sizingPass (ft : FreeType) : Except Halt Sizing :=
  forLoop (sizingBody ft) (interval minChar (maxChar + 1)) ⟨0, 0, 0⟩

/-- The local `bytesPerRow`: `maxWidth / 8`, incremented when `maxWidth % 8` is non-zero. -/
def bytesPerRow (s : Sizing) : Int :=
  if Int.tmod s.maxWidth 8 ≠ 0 then Int.tdiv s.maxWidth 8 + 1 else Int.tdiv s.maxWidth 8

/-- The local `maxHeight`. -/
def maxHeight (s : Sizing) : Int :=
  s.maxAscent + s.maxDescent

/-- The local `bytesPerChar`. -/
def bytesPerChar (s : Sizing) : Int :=
  bytesPerRow s * maxHeight s

/-- The global `newFont` right after the allocations: a zero-filled bitmap block of
`bytesPerChar * (maxChar - minChar + 1)` bytes and a width block of
`maxChar - minChar + 1` bytes (every byte of which the packing loop overwrites). -/
def allocFont (s : Sizing) : UG_FONT :=
  { p := List.replicate (bytesPerChar s * (maxChar - minChar + 1)).toNat 0
    font_type := FONT_TYPE.FONT_TYPE_1BPP
    char_width := s.maxWidth
    char_height := maxHeight s
    start_char := minChar
    end_char := maxChar
    widths := List.replicate (maxChar - minChar + 1).toNat 0 }

/-- The source byte `b` read for pixel `(i, j)`. -/
def sourceByte (g : Glyph) (i j : Int) : Nat :=
  g.buffer (i * g.pitch + Int.tdiv j 8) % 256

/-- The test `b & (1 << (7 - (j % 8)))`. -/
def sourceBit (g : Glyph) (i j : Int) : Bool :=
  sourceByte g i j &&& (1 <<< (7 - Int.tmod j 8).toNat) != 0

/-- The local `xpos`. -/
def xpos (g : Glyph) (j : Int) : Int :=
  j + g.bitmap_left

/-- The local `ypos`. -/
def ypos (s : Sizing) (g : Glyph) (i : Int) : Int :=
  s.maxAscent + i - g.bitmap_top

/-- The index `((ch - minChar) * bytesPerChar) + ind` of the byte addressed for pixel `(i, j)`. -/
def destIndex (s : Sizing) (ch : Int) (g : Glyph) (i j : Int) : Int :=
  (ch - minChar) * bytesPerChar s + (ypos s g i * bytesPerRow s + Int.tdiv (xpos g j) 8)

/-- The body of the inner pixel loop acting on the bitmap block `p`: when the source
bit is set, `p[index] |= 1 << (xpos % 8)`. -/
def packPixel (s : Sizing) (ch : Int) (g : Glyph) (i j : Int) (p : List Nat) :
    Except Halt (List Nat) :=
  if sourceBit g i j then
    let k := Int.tmod (xpos g j) 8
    let idx := destIndex s ch g i j
    if k < 0 then .error Halt.undefined
    else if idx < 0 ∨ (p.length : Int) ≤ idx then .error Halt.undefined
    else .ok (p.set idx.toNat ((p.getD idx.toNat 0 ||| (1 <<< k.toNat)) % 256))
  else .ok p

/-- The loop over the columns `j` of source row `i`. -/
def packRow (s : Sizing) (ch : Int) (g : Glyph) (i : Int) (p : List Nat) :
    Except Halt (List Nat) :=
  forLoop (fun j q => packPixel s ch g i j q) (interval 0 g.width) p

/-- The loops over the rows and columns of one glyph. -/
def packGlyph (s : Sizing) (ch : Int) (g : Glyph) (p : List Nat) : Except Halt (List Nat) :=
  forLoop (fun i q => packRow s ch g i q) (interval 0 g.rows) p

/-- The byte stored in `widths[ch - minChar]`: `advance.x >> 6` converted to `UG_U8`. -/
def widthByte (g : Glyph) : Nat :=
  ((g.advance_x >>> (6 : Nat)) % 256).toNat

/-- One iteration of the packing loop: load the glyph (`exit(1)` on error), pack its
pixels, store its advance width. -/
def packChar (ft : FreeType) (s : Sizing) (ch : Int) (font : UG_FONT) : Except Halt UG_FONT :=
  match ft.loadChar Pass.packing ch with
  | none => .error (Halt.exit 1)
  | some g =>
    match packGlyph s ch g font.p with
    | .error e => .error e
    | .ok q =>
      .ok { font with p := q, widths := font.widths.set (ch - minChar).toNat (widthByte g) }

/-- The packing loop `for (ch = minChar; ch <= maxChar; ch++)`. -/
def packingPass (ft : FreeType) (s : Sizing) (font : UG_FONT) : Except Halt UG_FONT :=
  forLoop (packChar ft s) (interval minChar (maxChar + 1)) font

/-- The function `convertFont`. -/
def convertFont (ft : FreeType) (font : String) (dpi : Int) (fontSize : Rat) :
    Except Halt UG_FONT :=
  if ft.initFreeType ≠ 0 then .error (Halt.exit 1)
  else if ft.newFace font ≠ 0 then .error (Halt.exit 1)
  else if (if dpi > 0 then ft.setCharSize fontSize dpi else ft.setPixelSizes fontSize) ≠ 0 then
    .error (Halt.exit 1)
  else
    match sizingPass ft with
    | .error e => .error e
    | .ok s => packingPass ft s (allocFont s)

/-- A FreeType whose set-up calls succeed and which renders character `ch` as
`table ch` in both passes. -/
def tableFreeType (table : Int → Glyph) : FreeType :=
  { initFreeType := 0
    newFace := fun _ => 0
    setCharSize := fun _ _ => 0
    setPixelSizes := fun _ => 0
    loadChar := fun _ ch => some (table ch) }

/-- The value of the sizing locals after the loop has handled the codes `xs`, each
rendered as `table` says. -/
def sizeOver (table : Int → Glyph) : List Int → Sizing → Sizing
  | [], s => s
  | ch :: xs, s => sizeOver table xs (sizeGlyph (table ch) s)

/-- The cell that the sizing loop computes for a table of glyphs over 32..126. -/
def cellOf (table : Int → Glyph) : Sizing :=
  sizeOver table (interval minChar (maxChar + 1)) ⟨0, 0, 0⟩

/-- Two states of `newFont` agree on the fields the packing loop never writes and on the
sizes of the two blocks. -/
def sameShape (f g : UG_FONT) : Prop :=
  g.p.length = f.p.length ∧ g.widths.length = f.widths.length ∧ g.font_type = f.font_type ∧
    g.char_width = f.char_width ∧ g.char_height = f.char_height ∧
    g.start_char = f.start_char ∧ g.end_char = f.end_char

/-- What the run does that can be observed from outside, besides its exit code. -/
inductive Event where
  | usage
  | showFont (text : String)
  | fopen (name : String)
  | fprintf (name : String) (texts : List String)
  | fclose (name : String)
  deriving DecidableEq, Repr

/-- The `baseName` of `dumpFont`: the text after the last slash (`strrchr`), cut at its
first dot (`strchr`). -/
def baseName (fontFile : String) : List Char :=
  ((fontFile.data.reverse.takeWhile (fun c => c != '/')).reverse).takeWhile (fun c => c != '.')

/-- The text `sprintf` builds for `"%s_%dX%d"` followed by `suffix`. -/
def artifactName (fontFile : String) (font : UG_FONT) (suffix : String) : String :=
  String.mk (baseName fontFile) ++ "_" ++ toString font.char_width ++ "X" ++
    toString font.char_height ++ suffix

/-- The digits printed by `%X`. -/
def hexDigits (n : Nat) : List Char :=
  (Nat.toDigits 16 n).map Char.toUpper

/-- The digits printed by `%02X`. -/
def hex02 (n : Nat) : List Char :=
  if (hexDigits n).length < 2 then '0' :: hexDigits n else hexDigits n

/-- The output to the `.c` file while the bitmap table is printed: the texts printed so
far, one per `fprintf`, and the local `current`. -/
structure Emit where
  out : List String
  current : Int
  deriving DecidableEq, Repr

/-- The local `bytesPerChar` of `dumpFont`: `char_height * (char_width / 8)`, plus
`char_height` when `char_width % 8` is not zero. -/
def dumpBytesPerChar (font : UG_FONT) : Int :=
  if Int.tmod font.char_width 8 ≠ 0 then
    font.char_height * Int.tdiv font.char_width 8 + font.char_height
  else font.char_height * Int.tdiv font.char_width 8

/-- The body of the loop over `b`: a comma unless `b` is 0, then `font->p[current]` as
`0x%02X`, then `++current`; reading outside the block is undefined. -/
def dumpByte (font : UG_FONT) (b : Int) (e : Emit) : Except Halt Emit :=
  if e.current < 0 ∨ (font.p.length : Int) ≤ e.current then .error Halt.undefined
  else
    .ok ⟨e.out ++ (if b ≠ 0 then [","] else []) ++
        ["0x" ++ String.mk (hex02 (font.p.getD e.current.toNat 0))],
      e.current + 1⟩

/-- The texts printed after the bytes of the row of `ch`: the closing brace, a comma
unless the row is the last, and the comment `// 0x%X '%c'`. -/
def rowTail (font : UG_FONT) (ch : Int) : List String :=
  [" \x7d", if ch ≤ font.end_char - 1 then "," else " ",
    " // 0x" ++ String.mk (hexDigits (ch % 4294967296).toNat) ++ " '" ++
      String.singleton (Char.ofNat (ch % 256).toNat) ++ "'\n"]

/-- The body of the loop over `ch` that prints the bitmap table: one row. -/
def dumpChar (font : UG_FONT) (ch : Int) (e : Emit) : Except Halt Emit :=
  match forLoop (dumpByte font) (interval 0 (dumpBytesPerChar font))
      ⟨e.out ++ ["  \x7b"], e.current⟩ with
  | .error h => .error h
  | .ok r =>
    .ok ⟨r.out ++ rowTail font ch, r.current⟩

/-- The rows of the bitmap table: the loop `for (ch = start_char; ch <= end_char; ch++)`
started with `current = 0`. -/
def dumpBits (font : UG_FONT) : Except Halt Emit :=
  forLoop (dumpChar font) (interval font.start_char (font.end_char + 1)) ⟨[], 0⟩

/-- The body of the loop that prints the width table; reading outside the width block is
undefined. -/
def dumpWidth (font : UG_FONT) (ch : Int) (out : List String) : Except Halt (List String) :=
  if ch - font.start_char < 0 ∨ (font.widths.length : Int) ≤ ch - font.start_char then
    .error Halt.undefined
  else
    .ok (out ++ (if ch ≠ font.start_char then [","] else []) ++
      [toString (font.widths.getD (ch - font.start_char).toNat 0)])

/-- The value of `(int)fontSize`: the size truncated towards zero. -/
def sizeAsInt (fontSize : Rat) : Int :=
  Int.tdiv fontSize.num fontSize.den

/-- The texts printed to the `.c` file before the rows of the bitmap table. -/
def dumpHeader (font : UG_FONT) (fontFile : String) (fontName : String)
    (fontSize : Rat) (dpi : Int) : List String :=
  ["// Converted from " ++ fontFile ++ "\n",
    "//  --size " ++ toString (sizeAsInt fontSize) ++ "\n"] ++
  (if dpi > 0 then ["//  --dpi " ++ toString dpi ++ "\n"] else []) ++
  ["// For copyright, see original font file.\n",
    "\n#include \"ugui.h\"\n\n",
    "static __UG_FONT_DATA unsigned char fontBits_" ++ fontName ++ "[" ++
      toString (font.end_char - font.start_char + 1) ++ "][" ++
      toString (dumpBytesPerChar font) ++ "] = \x7b\n"]

/-- The texts printed to the `.c` file, one per `fprintf`; the conversion `(int)fontSize`
is undefined when the truncated size is not a value of `int`. -/
def dumpDefinitions (font : UG_FONT) (fontFile : String) (fontName : String)
    (fontSize : Rat) (dpi : Int) : Except Halt (List String) :=
  if sizeAsInt fontSize < -2147483648 ∨ 2147483647 < sizeAsInt fontSize then
    .error Halt.undefined
  else
    match dumpBits font with
    | .error h => .error h
    | .ok bits =>
      match forLoop (dumpWidth font) (interval font.start_char (font.end_char + 1))
          (dumpHeader font fontFile fontName fontSize dpi ++ bits.out ++
            ["\x7d;\n", "static const UG_U8 fontWidths_" ++ fontName ++ "[] = \x7b\n"]) with
      | .error h => .error h
      | .ok out =>
        .ok (out ++ ["\x7d;\n",
          "const UG_FONT font_" ++ fontName ++ " = \x7b (unsigned char*)fontBits_" ++
            fontName ++ ", FONT_TYPE_1BPP, " ++ toString font.char_width ++ ", " ++
            toString font.char_height ++ ", " ++ toString font.start_char ++ ", " ++
            toString font.end_char ++ ", fontWidths_" ++ fontName ++ " \x7d;\n"])

/-- The text printed to the `.h` file. -/
def dumpDeclarations (fontName : String) : List String :=
  ["extern const UG_FONT font_" ++ fontName ++ ";\n"]

/-- The text `strcpy` copies into `fileNameBuf`: the font file path after its last slash. -/
def afterLastSlash (fontFile : String) : String :=
  String.mk (fontFile.data.reverse.takeWhile (fun c => c != '/')).reverse

/-- The function `dumpFont`: the two output files are opened for writing in turn, `exit(2)`
when an open fails (`canOpen name = false`), and the texts are printed to them; a text whose
bytes (strings being UTF-8) and terminating zero do not fit its 80-byte buffer is an
overflow. -/
def dumpFont (canOpen : String → Bool) (font : UG_FONT) (fontFile : String) (fontSize : Rat)
    (dpi : Int) : List Event × Except Halt Unit :=
  let fontName := artifactName fontFile font ""
  let cFile := artifactName fontFile font ".c"
  let hFile := artifactName fontFile font ".h"
  if 80 ≤ (afterLastSlash fontFile).utf8ByteSize ∨ 80 ≤ cFile.utf8ByteSize then
    ([], .error Halt.undefined)
  else if !canOpen cFile then ([], .error (Halt.exit 2))
  else
    match dumpDefinitions font fontFile fontName fontSize dpi with
    | .error h => ([Event.fopen cFile], .error h)
    | .ok texts =>
      if !canOpen hFile then
        ([Event.fopen cFile, Event.fprintf cFile texts, Event.fclose cFile],
          .error (Halt.exit 2))
      else
        ([Event.fopen cFile, Event.fprintf cFile texts, Event.fclose cFile,
          Event.fopen hFile, Event.fprintf hFile (dumpDeclarations fontName),
          Event.fclose hFile], .ok ())

/-- The globals of `main` once the `getopt_long` loop is over; `unknownOption` records
that the loop met an option outside `longopts` (the `default` branch). -/
structure Options where
  unknownOption : Bool
  dump : Bool
  showText : Option String
  fontFile : Option String
  fontSize : Rat
  dpi : Int

/-- The function `main`: the events of the run and the way it ends (`Halt.exit 0` when
`main` returns). -/
def main (o : Options) (ft : FreeType) (canOpen : String → Bool) : List Event × Halt :=
  if o.unknownOption then ([Event.usage], Halt.exit 1)
  else
    match o.fontFile with
    | none => ([Event.usage], Halt.exit 1)
    | some fontFile =>
      if (!o.dump && o.showText.isNone) || o.fontSize == 0 then ([Event.usage], Halt.exit 1)
      else
        match convertFont ft fontFile o.dpi o.fontSize with
        | .error e => ([], e)
        | .ok font =>
          let shown : List Event :=
            match o.showText with
            | some text => [Event.showFont text]
            | none => []
          if o.dump then
            match dumpFont canOpen font fontFile o.fontSize o.dpi with
            | (events, .ok _) => (shown ++ events, Halt.exit 0)
            | (events, .error e) => (shown ++ events, e)
          else (shown, Halt.exit 0)

/-- The value `m` is the largest that `f` takes on the codes 32..126. -/
def IsMaxOverRange (f : Int → Int) (m : Int) : Prop :=
  (∀ ch, 32 ≤ ch → ch ≤ 126 → f ch ≤ m) ∧ ∃ ch, 32 ≤ ch ∧ ch ≤ 126 ∧ f ch = m

/-- The packed buffer of character `ch`: the `bytesPerChar` bytes of the bitmap block that
start at index `(ch - minChar) * bytesPerChar`. -/
def charBuffer (s : Sizing) (font : UG_FONT) (ch : Int) : List Nat :=
  (font.p.drop ((ch - minChar) * bytesPerChar s).toNat).take (bytesPerChar s).toNat

/-- A glyph of one row and one column whose top row sits one pixel above the baseline:
`left` is its `bitmap_left`, `byte` the only byte of its bitmap, `advance` its `advance.x`. -/
def dotGlyph (left : Int) (byte : Nat) (advance : Int) : Glyph :=
  ⟨1, 1, 1, fun _ => byte, left, 1, advance⟩

/-- A face all of whose glyphs are a single set pixel drawn one column right of the pen
position. -/
def shiftedDots : Int → Glyph :=
  fun _ => dotGlyph 1 128 128

/-- A face whose space character is an unset pixel drawn eight columns right of the pen
position, every other character being a set pixel at the pen position. -/
def spillTable : Int → Glyph :=
  fun ch => if ch = 32 then dotGlyph 8 0 64 else dotGlyph 0 128 64

/-- A face all of whose glyphs are a single set pixel drawn at the pen position. -/
def plainDots : Int → Glyph :=
  fun _ => dotGlyph 0 128 64

/-- A face all of whose glyphs have an empty bitmap and an advance of 256 pixels
(`advance.x = 256 * 64`). -/
def wideAdvance : Int → Glyph :=
  fun _ => ⟨0, 0, 0, fun _ => 0, 0, 0, 16384⟩

/-- A FreeType that renders every code as a set pixel at the pen position, except that
loading character 65 fails in the packing pass. -/
def missingInPacking : FreeType :=
  { initFreeType := 0
    newFace := fun _ => 0
    setCharSize := fun _ _ => 0
    setPixelSizes := fun _ => 0
    loadChar := fun pass ch =>
      if pass = Pass.packing ∧ ch = 65 then none else some (plainDots ch) }

/-- A FreeType that renders every code as a set pixel, drawn at the pen position except
for code 125, where it is drawn sixteen columns to the right; loading character 126 fails in
the packing pass. -/
def lateFailure : FreeType :=
  { initFreeType := 0
    newFace := fun _ => 0
    setCharSize := fun _ _ => 0
    setPixelSizes := fun _ => 0
    loadChar := fun pass ch =>
      if pass = Pass.packing ∧ ch = 126 then none
      else some (if ch = 125 then dotGlyph 16 128 64 else dotGlyph 0 128 64) }

/-- The options of a run asked to dump the font `font.ttf` at size 8. -/
def dumpOptions : Options :=
  { unknownOption := false
    dump := true
    showText := none
    fontFile := some "font.ttf"
    fontSize := 8
    dpi := 0 }

/-- A glyph with a blank bitmap of the given size and bearings, advancing by its width. -/
def blankGlyph (rows width left top : Int) : Glyph :=
  ⟨rows, width, 1, fun _ => 0, left, top, 64 * width⟩

/-- A face in which character 103 has a bitmap 6 pixels wide reaching 6 rows above and 2
rows below the baseline, every other bitmap being empty. -/
def exampleFace : Int → Glyph :=
  fun ch => if ch = 103 then blankGlyph 8 6 0 6 else blankGlyph 0 0 0 0

/-- A face whose space character is a set pixel drawn eight columns right of the pen
position, every other character being an unset pixel at the pen position. -/
def strayDot : Int → Glyph :=
  fun ch => if ch = 32 then dotGlyph 8 128 64 else dotGlyph 0 0 64

/-- A face all of whose glyphs have an empty bitmap. -/
def emptyFace : Int → Glyph :=
  fun _ => blankGlyph 0 0 0 0

/-- A face all of whose glyphs have an empty bitmap placed one row above the baseline
(`bitmap_top = 1`). -/
def hoveringBlanks : Int → Glyph :=
  fun _ => blankGlyph 0 0 0 1

/-- The upper-case hexadecimal digit of a value below 16. -/
def upperHexDigit (n : Nat) : Char :=
  "0123456789ABCDEF".data.getD n '0'

/-- The byte literal of the specification: `0x` and two upper-case hexadecimal digits. -/
def specHexLiteral (b : Nat) : String :=
  String.mk ['0', 'x', upperHexDigit (b / 16), upperHexDigit (b % 16)]

/-- The byte literals of row `k` as the specification has them: the bytes
`p[k * bytesPerChar] .. p[(k + 1) * bytesPerChar - 1]` in order, separated by commas. -/
def specRowLiterals (p : List Nat) (bytesPerChar k : Nat) : List String :=
  (List.range bytesPerChar).flatMap fun b =>
    (if b = 0 then [] else [","]) ++ [specHexLiteral (p.getD (k * bytesPerChar + b) 0)]

/-- The rows of the bitmap table as the specification has them: row `k`, for
`k = 0 .. rows - 1`, is an opening brace, the byte literals of the row, and the annotation of
character `start_char + k`. -/
def specBitsRows (font : UG_FONT) (rows bytesPerChar : Nat) : List String :=
  (List.range rows).flatMap fun k =>
    ["  \x7b"] ++ specRowLiterals font.p bytesPerChar k ++ rowTail font (font.start_char + k)

/-- The pixel size 8.2. -/
def sizeLow : Rat :=
  ⟨41, 5, by decide, by decide⟩

/-- The pixel size 8.7. -/
def sizeHigh : Rat :=
  ⟨87, 10, by decide, by decide⟩

/-- The options of a run asked to dump the font `font.ttf` at the pixel size `size`. -/
def dumpAtSize (size : Rat) : Options :=
  { unknownOption := false
    dump := true
    showText := none
    fontFile := some "font.ttf"
    fontSize := size
    dpi := 0 }

/-! ## Loops -/

theorem mem_upFrom (n : Nat) : ∀ (lo x : Int), x ∈ upFrom lo n ↔ lo ≤ x ∧ x < lo + n := by
  induction n with
  | zero => intro lo x; simp [upFrom]
  | succ n ih =>
    intro lo x
    simp only [upFrom, List.mem_cons, ih]
    push_cast
    omega

theorem mem_interval (lo hi x : Int) : x ∈ interval lo hi ↔ lo ≤ x ∧ x < hi := by
  unfold interval
  rw [mem_upFrom]
  omega

theorem length_upFrom (n : Nat) : ∀ lo : Int, (upFrom lo n).length = n := by
  induction n with
  | zero => intro lo; rfl
  | succ n ih => intro lo; simp [upFrom, ih]

/-- A loop whose every iteration succeeds and keeps an invariant succeeds and keeps it. -/
theorem forLoop_total {σ : Type} (body : Int → σ → Except Halt σ) (Inv : σ → Prop)
    (xs : List Int)
    (h : ∀ x ∈ xs, ∀ s, Inv s → ∃ t, body x s = .ok t ∧ Inv t) :
    ∀ s, Inv s → ∃ t, forLoop body xs s = .ok t ∧ Inv t := by
  induction xs with
  | nil => intro s hs; exact ⟨s, rfl, hs⟩
  | cons x xs ih =>
    intro s hs
    obtain ⟨t, ht, hInv⟩ := h x (List.mem_cons_self x xs) s hs
    obtain ⟨u, hu, hInvu⟩ := ih (fun y hy => h y (List.mem_cons_of_mem x hy)) t hInv
    exact ⟨u, by simp [forLoop, ht, hu], hInvu⟩

/-- Whatever a loop returns satisfies every invariant its iterations keep. -/
theorem forLoop_keeps {σ : Type} (body : Int → σ → Except Halt σ) (Inv : σ → Prop)
    (xs : List Int)
    (h : ∀ x ∈ xs, ∀ s t, Inv s → body x s = .ok t → Inv t) :
    ∀ s t, Inv s → forLoop body xs s = .ok t → Inv t := by
  induction xs with
  | nil =>
    intro s t hs ht
    simp only [forLoop, Except.ok.injEq] at ht
    exact ht ▸ hs
  | cons x xs ih =>
    intro s t hs ht
    simp only [forLoop] at ht
    cases hb : body x s with
    | error e => rw [hb] at ht; cases ht
    | ok u =>
      rw [hb] at ht
      exact ih (fun y hy => h y (List.mem_cons_of_mem x hy)) u t
        (h x (List.mem_cons_self x xs) s u hs hb) ht

/-- A loop one of whose iterations never succeeds does not succeed. -/
theorem forLoop_fails {σ : Type} (body : Int → σ → Except Halt σ) (xs : List Int) (x : Int)
    (hx : x ∈ xs) (h : ∀ s t, body x s ≠ .ok t) : ∀ s t, forLoop body xs s ≠ .ok t := by
  induction xs with
  | nil => cases hx
  | cons y ys ih =>
    intro s t ht
    simp only [forLoop] at ht
    cases hb : body y s with
    | error e => rw [hb] at ht; cases ht
    | ok u =>
      rw [hb] at ht
      rcases List.mem_cons.mp hx with rfl | hmem
      · exact h s u hb
      · exact ih hmem u t ht

/-- A loop whose iterations can only stop with `exit(1)`, one of which does, stops with
`exit(1)`. -/
theorem forLoop_exit_one {σ : Type} (body : Int → σ → Except Halt σ) (xs : List Int) (x : Int)
    (hx : x ∈ xs) (h : ∀ s, body x s = .error (Halt.exit 1))
    (hall : ∀ y s e, body y s = .error e → e = Halt.exit 1) :
    ∀ s, forLoop body xs s = .error (Halt.exit 1) := by
  induction xs with
  | nil => cases hx
  | cons y ys ih =>
    intro s
    simp only [forLoop]
    cases hb : body y s with
    | error e => rw [hall y s e hb]
    | ok u =>
      rcases List.mem_cons.mp hx with rfl | hmem
      · rw [h s] at hb; cases hb
      · exact ih hmem u

/-! ## The sizing pass -/

theorem forLoop_sizing (ft : FreeType) (table : Int → Glyph) (xs : List Int)
    (h : ∀ ch ∈ xs, ft.loadChar Pass.sizing ch = some (table ch)) :
    ∀ s, forLoop (sizingBody ft) xs s = .ok (sizeOver table xs s) := by
  induction xs with
  | nil => intro s; rfl
  | cons x xs ih =>
    intro s
    have hx : sizingBody ft x s = .ok (sizeGlyph (table x) s) := by
      simp [sizingBody, h x (List.mem_cons_self x xs)]
    simp only [forLoop, hx, sizeOver]
    exact ih (fun y hy => h y (List.mem_cons_of_mem x hy)) _

theorem sizingPass_table (table : Int → Glyph) :
    sizingPass (tableFreeType table) = .ok (cellOf table) :=
  forLoop_sizing (tableFreeType table) table _ (fun _ _ => rfl) _

theorem glyphDescent_nonneg (g : Glyph) : 0 ≤ glyphDescent g := by
  unfold glyphDescent max; split <;> omega

theorem glyphAscent_nonneg (g : Glyph) : 0 ≤ glyphAscent g := by
  unfold glyphAscent; generalize glyphDescent g = d
  unfold max; split <;> split <;> omega

theorem glyphDescent_eq (g : Glyph) : glyphDescent g = Max.max 0 (g.rows - g.bitmap_top) := by
  unfold glyphDescent max; split <;> omega

theorem glyphAscent_eq (g : Glyph) (h : 0 ≤ g.rows) : glyphAscent g = Max.max 0 g.bitmap_top := by
  unfold glyphAscent glyphDescent max
  split <;> split <;> split <;> omega

theorem sizeGlyph_ge (g : Glyph) (s : Sizing) :
    (s.maxWidth ≤ (sizeGlyph g s).maxWidth ∧ g.width ≤ (sizeGlyph g s).maxWidth) ∧
      (s.maxAscent ≤ (sizeGlyph g s).maxAscent ∧ glyphAscent g ≤ (sizeGlyph g s).maxAscent) ∧
      (s.maxDescent ≤ (sizeGlyph g s).maxDescent ∧
        glyphDescent g ≤ (sizeGlyph g s).maxDescent) := by
  simp only [sizeGlyph]
  refine ⟨?_, ?_, ?_⟩ <;> split <;> omega

theorem sizeGlyph_cases (g : Glyph) (s : Sizing) :
    ((sizeGlyph g s).maxWidth = s.maxWidth ∨ (sizeGlyph g s).maxWidth = g.width) ∧
      ((sizeGlyph g s).maxAscent = s.maxAscent ∨ (sizeGlyph g s).maxAscent = glyphAscent g) ∧
      ((sizeGlyph g s).maxDescent = s.maxDescent ∨
        (sizeGlyph g s).maxDescent = glyphDescent g) := by
  simp only [sizeGlyph]
  refine ⟨?_, ?_, ?_⟩ <;> split <;> simp

theorem sizeOver_mono (table : Int → Glyph) (xs : List Int) :
    ∀ s, s.maxWidth ≤ (sizeOver table xs s).maxWidth ∧
      s.maxAscent ≤ (sizeOver table xs s).maxAscent ∧
      s.maxDescent ≤ (sizeOver table xs s).maxDescent := by
  induction xs with
  | nil => intro s; simp [sizeOver]
  | cons x xs ih =>
    intro s
    obtain ⟨h1, h2, h3⟩ := ih (sizeGlyph (table x) s)
    obtain ⟨k1, k2, k3⟩ := sizeGlyph_ge (table x) s
    simp only [sizeOver]
    omega

theorem sizeOver_bound (table : Int → Glyph) (xs : List Int) :
    ∀ s, ∀ ch ∈ xs, (table ch).width ≤ (sizeOver table xs s).maxWidth ∧
      glyphAscent (table ch) ≤ (sizeOver table xs s).maxAscent ∧
      glyphDescent (table ch) ≤ (sizeOver table xs s).maxDescent := by
  induction xs with
  | nil => intro s ch hch; cases hch
  | cons x xs ih =>
    intro s ch hch
    simp only [sizeOver]
    rcases List.mem_cons.mp hch with rfl | hmem
    · obtain ⟨h1, h2, h3⟩ := sizeOver_mono table xs (sizeGlyph (table ch) s)
      obtain ⟨k1, k2, k3⟩ := sizeGlyph_ge (table ch) s
      omega
    · exact ih _ ch hmem

theorem sizeOver_attained (table : Int → Glyph) (xs : List Int) :
    ∀ s,
      ((sizeOver table xs s).maxWidth = s.maxWidth ∨
        ∃ ch ∈ xs, (table ch).width = (sizeOver table xs s).maxWidth) ∧
      ((sizeOver table xs s).maxAscent = s.maxAscent ∨
        ∃ ch ∈ xs, glyphAscent (table ch) = (sizeOver table xs s).maxAscent) ∧
      ((sizeOver table xs s).maxDescent = s.maxDescent ∨
        ∃ ch ∈ xs, glyphDescent (table ch) = (sizeOver table xs s).maxDescent) := by
  induction xs with
  | nil => intro s; simp [sizeOver]
  | cons x xs ih =>
    intro s
    obtain ⟨h1, h2, h3⟩ := ih (sizeGlyph (table x) s)
    obtain ⟨k1, k2, k3⟩ := sizeGlyph_cases (table x) s
    simp only [sizeOver]
    refine ⟨?_, ?_, ?_⟩
    · rcases h1 with h | ⟨ch, hch, h⟩
      · rcases k1 with k | k
        · exact Or.inl (h.trans k)
        · exact Or.inr ⟨x, List.mem_cons_self x xs, (h.trans k).symm⟩
      · exact Or.inr ⟨ch, List.mem_cons_of_mem x hch, h⟩
    · rcases h2 with h | ⟨ch, hch, h⟩
      · rcases k2 with k | k
        · exact Or.inl (h.trans k)
        · exact Or.inr ⟨x, List.mem_cons_self x xs, (h.trans k).symm⟩
      · exact Or.inr ⟨ch, List.mem_cons_of_mem x hch, h⟩
    · rcases h3 with h | ⟨ch, hch, h⟩
      · rcases k3 with k | k
        · exact Or.inl (h.trans k)
        · exact Or.inr ⟨x, List.mem_cons_self x xs, (h.trans k).symm⟩
      · exact Or.inr ⟨ch, List.mem_cons_of_mem x hch, h⟩

theorem cellOf_nonneg (table : Int → Glyph) :
    0 ≤ (cellOf table).maxWidth ∧ 0 ≤ (cellOf table).maxAscent ∧
      0 ≤ (cellOf table).maxDescent :=
  sizeOver_mono table _ ⟨0, 0, 0⟩

theorem cellOf_bound (table : Int → Glyph) (ch : Int) (h1 : 32 ≤ ch) (h2 : ch ≤ 126) :
    (table ch).width ≤ (cellOf table).maxWidth ∧
      glyphAscent (table ch) ≤ (cellOf table).maxAscent ∧
      glyphDescent (table ch) ≤ (cellOf table).maxDescent :=
  sizeOver_bound table _ ⟨0, 0, 0⟩ ch
    ((mem_interval _ _ _).mpr (by simp only [minChar, maxChar]; omega))

/-! ## The packing pass -/

theorem bytesPerRow_spec (s : Sizing) (h : 0 ≤ s.maxWidth) :
    bytesPerRow s = (s.maxWidth + 7) / 8 := by
  unfold bytesPerRow
  rw [Int.tmod_eq_emod h (by decide), Int.tdiv_eq_ediv h (by decide)]
  split <;> omega

theorem packPixel_length (s : Sizing) (ch : Int) (g : Glyph) (i j : Int) (p q : List Nat)
    (h : packPixel s ch g i j p = .ok q) : q.length = p.length := by
  unfold packPixel at h
  split at h
  · simp only at h
    split at h
    · cases h
    · split at h
      · cases h
      · simp only [Except.ok.injEq] at h
        rw [← h, List.length_set]
  · simp only [Except.ok.injEq] at h
    rw [h]

/-- A pixel whose column is not negative and whose byte lies in the block is packed
without leaving defined behaviour. -/
theorem packPixel_ok (s : Sizing) (ch : Int) (g : Glyph) (i j : Int) (p : List Nat)
    (hx : 0 ≤ xpos g j) (h0 : 0 ≤ destIndex s ch g i j)
    (h1 : destIndex s ch g i j < p.length) :
    ∃ q, packPixel s ch g i j p = .ok q := by
  unfold packPixel
  split
  · have hk : ¬ Int.tmod (xpos g j) 8 < 0 := by
      rw [Int.tmod_eq_emod hx (by decide)]; omega
    have hi : ¬ (destIndex s ch g i j < 0 ∨ (p.length : Int) ≤ destIndex s ch g i j) := by omega
    simp only [hk, hi, if_false]
    exact ⟨_, rfl⟩
  · exact ⟨_, rfl⟩

/-- The byte addressed for a pixel that lies in the padded cell belongs to the buffer of
its own character. -/
theorem destIndex_mem (s : Sizing) (ch : Int) (g : Glyph) (i j : Int)
    (hx0 : 0 ≤ xpos g j) (hx1 : xpos g j < 8 * bytesPerRow s)
    (hy0 : 0 ≤ ypos s g i) (hy1 : ypos s g i < maxHeight s) :
    (ch - minChar) * bytesPerChar s ≤ destIndex s ch g i j ∧
      destIndex s ch g i j < (ch - minChar + 1) * bytesPerChar s := by
  unfold destIndex bytesPerChar
  rw [Int.tdiv_eq_ediv hx0 (by decide)]
  have hq0 : 0 ≤ xpos g j / 8 := by omega
  have hq1 : xpos g j / 8 < bytesPerRow s := by omega
  have hb : 0 < bytesPerRow s := by omega
  have hm0 : 0 ≤ ypos s g i * bytesPerRow s := Int.mul_nonneg hy0 (by omega)
  have hm1 : (ypos s g i + 1) * bytesPerRow s ≤ maxHeight s * bytesPerRow s :=
    Int.mul_le_mul_of_nonneg_right (by omega) (by omega)
  have e1 : (ypos s g i + 1) * bytesPerRow s = ypos s g i * bytesPerRow s + bytesPerRow s := by
    ring
  have e2 : (ch - minChar + 1) * (bytesPerRow s * maxHeight s) =
      (ch - minChar) * (bytesPerRow s * maxHeight s) + maxHeight s * bytesPerRow s := by ring
  constructor
  · omega
  · rw [e2]; omega

/-- Every source row of a glyph of the table lands on a row of the cell. -/
theorem ypos_in_cell (table : Int → Glyph) (ch : Int) (h1 : 32 ≤ ch) (h2 : ch ≤ 126)
    (i : Int) (hi0 : 0 ≤ i) (hi1 : i < (table ch).rows) :
    0 ≤ ypos (cellOf table) (table ch) i ∧
      ypos (cellOf table) (table ch) i < maxHeight (cellOf table) := by
  obtain ⟨_, ha, hd⟩ := cellOf_bound table ch h1 h2
  obtain ⟨_, hA, hD⟩ := cellOf_nonneg table
  rw [glyphAscent_eq _ (by omega)] at ha
  rw [glyphDescent_eq] at hd
  unfold ypos maxHeight
  omega

/-- The number of bytes of the bitmap block. -/
theorem length_allocFont (s : Sizing) :
    (allocFont s).p.length = (bytesPerChar s * (maxChar - minChar + 1)).toNat := by
  simp [allocFont]

theorem destIndex_in_block (s : Sizing) (ch : Int) (g : Glyph) (i j : Int)
    (h1 : 32 ≤ ch) (h2 : ch ≤ 126)
    (hx0 : 0 ≤ xpos g j) (hx1 : xpos g j < 8 * bytesPerRow s)
    (hy0 : 0 ≤ ypos s g i) (hy1 : ypos s g i < maxHeight s) :
    0 ≤ destIndex s ch g i j ∧
      destIndex s ch g i j < ((bytesPerChar s * (maxChar - minChar + 1)).toNat : Int) := by
  obtain ⟨ha, hb⟩ := destIndex_mem s ch g i j hx0 hx1 hy0 hy1
  have hbpc : 0 ≤ bytesPerChar s := Int.mul_nonneg (by omega) (by omega)
  have hlo : 0 ≤ (ch - minChar) * bytesPerChar s :=
    Int.mul_nonneg (by simp only [minChar]; omega) hbpc
  have hhi : (ch - minChar + 1) * bytesPerChar s ≤ (maxChar - minChar + 1) * bytesPerChar s :=
    Int.mul_le_mul_of_nonneg_right (by simp only [minChar, maxChar]; omega) hbpc
  have hlen : 0 ≤ bytesPerChar s * (maxChar - minChar + 1) :=
    Int.mul_nonneg hbpc (by simp only [minChar, maxChar]; omega)
  rw [Int.toNat_of_nonneg hlen, Int.mul_comm (bytesPerChar s)]
  omega

/-- Packing one glyph of the table whose columns all land in the padded row succeeds and
keeps the size of the block. -/
theorem packGlyph_total (table : Int → Glyph) (ch : Int) (h1 : 32 ≤ ch) (h2 : ch ≤ 126)
    (hfit : ∀ j, 0 ≤ j → j < (table ch).width →
      0 ≤ xpos (table ch) j ∧ xpos (table ch) j < 8 * bytesPerRow (cellOf table))
    (p : List Nat)
    (hp : p.length = (bytesPerChar (cellOf table) * (maxChar - minChar + 1)).toNat) :
    ∃ q, packGlyph (cellOf table) ch (table ch) p = .ok q ∧ q.length = p.length := by
  unfold packGlyph
  refine forLoop_total _ (fun q => q.length = p.length) _ ?_ p rfl
  intro i hi q hq
  rw [mem_interval] at hi
  obtain ⟨hy0, hy1⟩ := ypos_in_cell table ch h1 h2 i hi.1 hi.2
  unfold packRow
  refine forLoop_total _ (fun r => r.length = p.length) _ ?_ q hq
  intro j hj r hr
  rw [mem_interval] at hj
  obtain ⟨hx0, hx1⟩ := hfit j hj.1 hj.2
  obtain ⟨hd0, hd1⟩ := destIndex_in_block (cellOf table) ch (table ch) i j h1 h2 hx0 hx1 hy0 hy1
  obtain ⟨t, ht⟩ := packPixel_ok (cellOf table) ch (table ch) i j r hx0 hd0
    (by rw [hr, hp]; exact hd1)
  exact ⟨t, ht, (packPixel_length _ _ _ _ _ _ _ ht).trans hr⟩

theorem packGlyph_length (s : Sizing) (ch : Int) (g : Glyph) (p q : List Nat)
    (h : packGlyph s ch g p = .ok q) : q.length = p.length := by
  unfold packGlyph at h
  refine forLoop_keeps _ (fun r => r.length = p.length) _ ?_ p q rfl h
  intro i _ r t hr ht
  unfold packRow at ht
  refine forLoop_keeps _ (fun u => u.length = p.length) _ ?_ r t hr ht
  intro j _ u v hu hv
  exact (packPixel_length _ _ _ _ _ _ _ hv).trans hu

theorem packChar_shape (ft : FreeType) (s : Sizing) (ch : Int) (f g : UG_FONT)
    (h : packChar ft s ch f = .ok g) : sameShape f g := by
  unfold packChar at h
  split at h
  · cases h
  · split at h
    · cases h
    · rename_i q hq
      simp only [Except.ok.injEq] at h
      subst h
      exact ⟨packGlyph_length _ _ _ _ _ hq, by simp, rfl, rfl, rfl, rfl, rfl⟩

theorem sameShape_trans {f g h : UG_FONT} (a : sameShape f g) (b : sameShape g h) :
    sameShape f h := by
  unfold sameShape at *
  obtain ⟨a1, a2, a3, a4, a5, a6, a7⟩ := a
  obtain ⟨b1, b2, b3, b4, b5, b6, b7⟩ := b
  exact ⟨b1.trans a1, b2.trans a2, b3.trans a3, b4.trans a4, b5.trans a5, b6.trans a6,
    b7.trans a7⟩

theorem packingPass_shape (ft : FreeType) (s : Sizing) (f g : UG_FONT)
    (h : packingPass ft s f = .ok g) : sameShape f g := by
  unfold packingPass at h
  refine forLoop_keeps _ (fun u => sameShape f u) _ ?_ f g ?_ h
  · intro ch _ u v hu hv
    exact sameShape_trans hu (packChar_shape ft s ch u v hv)
  · exact ⟨rfl, rfl, rfl, rfl, rfl, rfl, rfl⟩

/-- The set-up calls of a table-driven FreeType succeed, so `convertFont` is its two passes. -/
theorem convertFont_table (table : Int → Glyph) (font : String) (dpi : Int) (fontSize : Rat) :
    convertFont (tableFreeType table) font dpi fontSize =
      packingPass (tableFreeType table) (cellOf table) (allocFont (cellOf table)) := by
  unfold convertFont
  rw [sizingPass_table]
  simp [tableFreeType]

/-- For a table all of whose glyphs land, column-wise, in the padded row of the cell,
`convertFont` returns a font. -/
theorem convertFont_returns (table : Int → Glyph) (font : String) (dpi : Int) (fontSize : Rat)
    (hfit : ∀ ch, 32 ≤ ch → ch ≤ 126 → ∀ j, 0 ≤ j → j < (table ch).width →
      0 ≤ xpos (table ch) j ∧ xpos (table ch) j < 8 * bytesPerRow (cellOf table)) :
    ∃ f, convertFont (tableFreeType table) font dpi fontSize = .ok f := by
  rw [convertFont_table]
  unfold packingPass
  have step : ∀ ch ∈ interval minChar (maxChar + 1), ∀ u : UG_FONT,
      u.p.length = (bytesPerChar (cellOf table) * (maxChar - minChar + 1)).toNat →
      ∃ v, packChar (tableFreeType table) (cellOf table) ch u = .ok v ∧
        v.p.length = (bytesPerChar (cellOf table) * (maxChar - minChar + 1)).toNat := by
    intro ch hch u hu
    rw [mem_interval] at hch
    simp only [minChar, maxChar] at hch
    obtain ⟨q, hq, hlen⟩ := packGlyph_total table ch hch.1 (by omega)
      (hfit ch hch.1 (by omega)) u.p hu
    have hv : packChar (tableFreeType table) (cellOf table) ch u =
        .ok { u with p := q, widths := u.widths.set (ch - minChar).toNat (widthByte (table ch)) } := by
      simp only [packChar, tableFreeType, hq]
    exact ⟨_, hv, hlen.trans hu⟩
  obtain ⟨f, hf, _⟩ := forLoop_total (packChar (tableFreeType table) (cellOf table))
    (fun u => u.p.length = (bytesPerChar (cellOf table) * (maxChar - minChar + 1)).toNat)
    (interval minChar (maxChar + 1)) step (allocFont (cellOf table)) (length_allocFont _)
  exact ⟨f, hf⟩

/-! ## Geometry of the bitmap block -/

theorem bytesPerRow_ceil (s : Sizing) (h : 0 ≤ s.maxWidth) :
    bytesPerRow s = ⌈(s.maxWidth : ℚ) / 8⌉ := by
  symm
  rw [Int.ceil_eq_iff, bytesPerRow_spec s h]
  have h8 : (0 : ℚ) < 8 := by norm_num
  constructor
  · rw [lt_div_iff₀ h8]
    have : ((s.maxWidth + 7) / 8 - 1) * 8 < s.maxWidth := by omega
    exact_mod_cast this
  · rw [div_le_iff₀ h8]
    have : s.maxWidth ≤ (s.maxWidth + 7) / 8 * 8 := by omega
    exact_mod_cast this

theorem length_charBuffer (s : Sizing) (f : UG_FONT) (ch : Int) (h1 : 32 ≤ ch) (h2 : ch ≤ 126)
    (hb : 0 ≤ bytesPerChar s)
    (hp : f.p.length = (bytesPerChar s * (maxChar - minChar + 1)).toNat) :
    (charBuffer s f ch).length = (bytesPerChar s).toNat := by
  unfold charBuffer
  rw [List.length_take, List.length_drop, hp]
  obtain ⟨B, hB⟩ := Int.eq_ofNat_of_zero_le hb
  obtain ⟨k, hk⟩ := Int.eq_ofNat_of_zero_le (show 0 ≤ ch - minChar by simp only [minChar]; omega)
  have hk94 : k ≤ 94 := by simp only [minChar] at hk; omega
  rw [hB, hk]
  simp only [minChar, maxChar]
  have e1 : ((k : Int) * (B : Int)).toNat = k * B := by
    rw [← Int.natCast_mul]; exact Int.toNat_natCast _
  have e2 : ((B : Int) * (126 - 32 + 1)).toNat = 95 * B := by
    have : (B : Int) * (126 - 32 + 1) = ((95 * B : Nat) : Int) := by push_cast; ring
    rw [this]; exact Int.toNat_natCast _
  rw [e1, e2, Int.toNat_natCast]
  have hm : (k + 1) * B ≤ 95 * B := Nat.mul_le_mul_right B (by omega)
  rw [Nat.succ_mul] at hm
  omega

/-! ## The cell as a maximum -/

theorem isMaxOverRange_of (f : Int → Int) (m : Int)
    (hb : ∀ ch, 32 ≤ ch → ch ≤ 126 → f ch ≤ m) (hn : ∀ ch, 32 ≤ ch → ch ≤ 126 → 0 ≤ f ch)
    (ha : m = 0 ∨ ∃ ch ∈ interval minChar (maxChar + 1), f ch = m) : IsMaxOverRange f m := by
  refine ⟨hb, ?_⟩
  rcases ha with h0 | ⟨ch, hch, hm⟩
  · refine ⟨32, by decide, by decide, ?_⟩
    have h1 := hb 32 (by decide) (by decide)
    have h2 := hn 32 (by decide) (by decide)
    omega
  · rw [mem_interval] at hch
    simp only [minChar, maxChar] at hch
    exact ⟨ch, hch.1, by omega, hm⟩

theorem isMaxOverRange_unique (f : Int → Int) (m n : Int) (hm : IsMaxOverRange f m)
    (hn : IsMaxOverRange f n) : m = n := by
  obtain ⟨b1, c1, l1, u1, e1⟩ := hm
  obtain ⟨b2, c2, l2, u2, e2⟩ := hn
  have h1 := b1 c2 l2 u2
  have h2 := b2 c1 l1 u1
  omega

theorem cellOf_ascent_isMax (table : Int → Glyph) :
    IsMaxOverRange (fun ch => glyphAscent (table ch)) (cellOf table).maxAscent :=
  isMaxOverRange_of _ _ (fun ch h1 h2 => (cellOf_bound table ch h1 h2).2.1)
    (fun _ _ _ => glyphAscent_nonneg _) (sizeOver_attained table _ ⟨0, 0, 0⟩).2.1

theorem cellOf_descent_isMax (table : Int → Glyph) :
    IsMaxOverRange (fun ch => glyphDescent (table ch)) (cellOf table).maxDescent :=
  isMaxOverRange_of _ _ (fun ch h1 h2 => (cellOf_bound table ch h1 h2).2.2)
    (fun _ _ _ => glyphDescent_nonneg _) (sizeOver_attained table _ ⟨0, 0, 0⟩).2.2

theorem cellOf_width_isMax (table : Int → Glyph)
    (h : ∀ ch, 32 ≤ ch → ch ≤ 126 → 0 ≤ (table ch).width) :
    IsMaxOverRange (fun ch => (table ch).width) (cellOf table).maxWidth :=
  isMaxOverRange_of _ _ (fun ch h1 h2 => (cellOf_bound table ch h1 h2).1) h
    (sizeOver_attained table _ ⟨0, 0, 0⟩).1

theorem isMaxOverRange_congr (f g : Int → Int) (m : Int)
    (h : ∀ ch, 32 ≤ ch → ch ≤ 126 → f ch = g ch) (hm : IsMaxOverRange f m) :
    IsMaxOverRange g m := by
  obtain ⟨b, c, l, u, e⟩ := hm
  exact ⟨fun ch h1 h2 => h ch h1 h2 ▸ b ch h1 h2, c, l, u, h c l u ▸ e⟩

/-! ## One pixel -/

theorem and_shift_ne_zero (b k : Nat) : (b &&& (1 <<< k) != 0) = b.testBit k := by
  rw [Nat.one_shiftLeft]
  cases h : b.testBit k with
  | true =>
    have h1 : (b &&& 2 ^ k).testBit k = true := by
      rw [Nat.testBit_and, h, Nat.testBit_two_pow_self]; rfl
    have h2 : b &&& 2 ^ k ≠ 0 := by
      intro h0
      rw [h0, Nat.zero_testBit] at h1
      cases h1
    simp [h2]
  | false =>
    have h0 : b &&& 2 ^ k = 0 := by
      apply Nat.eq_of_testBit_eq
      intro n
      rw [Nat.testBit_and, Nat.zero_testBit, Nat.testBit_two_pow]
      by_cases hn : k = n
      · subst hn; simp [h]
      · simp [hn]
    simp [h0]

/-- The source test reads bit `7 - j % 8` of the source byte. -/
theorem sourceBit_eq_testBit (g : Glyph) (i j : Int) :
    sourceBit g i j = (sourceByte g i j).testBit (7 - Int.tmod j 8).toNat := by
  unfold sourceBit
  exact and_shift_ne_zero _ _

theorem packPixel_unset (s : Sizing) (ch : Int) (g : Glyph) (i j : Int) (p : List Nat)
    (h : sourceBit g i j = false) : packPixel s ch g i j p = .ok p := by
  simp [packPixel, h]

/-- What the body of the pixel loop does for a set source pixel whose column is not
negative and whose byte lies in the block, be the pixel inside the cell or not. -/
theorem packPixel_set (s : Sizing) (ch : Int) (g : Glyph) (i j : Int) (p : List Nat)
    (h : sourceBit g i j = true) (hx : 0 ≤ xpos g j) (h0 : 0 ≤ destIndex s ch g i j)
    (h1 : destIndex s ch g i j < p.length) :
    packPixel s ch g i j p =
      .ok (p.set (destIndex s ch g i j).toNat
        ((p.getD (destIndex s ch g i j).toNat 0 ||| 2 ^ (xpos g j % 8).toNat) % 256)) := by
  have hk : ¬ Int.tmod (xpos g j) 8 < 0 := by
    rw [Int.tmod_eq_emod hx (by decide)]; omega
  have hi : ¬ (destIndex s ch g i j < 0 ∨ (p.length : Int) ≤ destIndex s ch g i j) := by omega
  unfold packPixel
  simp only [h, if_true, hk, hi, if_false, Nat.one_shiftLeft]
  rw [Int.tmod_eq_emod hx (by decide)]

theorem or_bit_lt (b k : Nat) (hb : b < 256) (hk : k < 8) : b ||| 2 ^ k < 256 := by
  have h2 : 2 ^ k < 2 ^ 8 := Nat.pow_lt_pow_right (by decide) hk
  exact Nat.or_lt_two_pow (n := 8) hb h2

theorem getD_set (p : List Nat) (m n v : Nat) (hm : m < p.length) :
    (p.set m v).getD n 0 = if n = m then v else p.getD n 0 := by
  simp only [List.getD_eq_getElem?_getD, List.getElem?_set]
  by_cases h : m = n
  · subst h; simp [hm]
  · have h2 : ¬ n = m := fun e => h e.symm
    simp [h, h2]

theorem set_getD_self (p : List Nat) (m : Nat) (hm : m < p.length) :
    p.set m (p.getD m 0) = p := by
  apply List.ext_getElem (by simp)
  intro n h1 h2
  rw [List.getElem_set]
  split
  · rename_i e
    subst e
    exact List.getD_eq_getElem p 0 hm
  · rfl

/-- The bits of the block after a set pixel has been packed: the old bits, and the bit
`xpos % 8` of the addressed byte. -/
theorem packPixel_bits (p : List Nat) (m k : Nat) (hm : m < p.length) (hk : k < 8)
    (hbytes : ∀ b ∈ p, b < 256) :
    (∀ b ∈ p.set m ((p.getD m 0 ||| 2 ^ k) % 256), b < 256) ∧
      ∀ n c, ((p.set m ((p.getD m 0 ||| 2 ^ k) % 256)).getD n 0).testBit c =
        ((p.getD n 0).testBit c || decide (n = m ∧ c = k)) := by
  have hb : p.getD m 0 < 256 := by
    rw [List.getD_eq_getElem p 0 hm]
    exact hbytes _ (List.getElem_mem hm)
  have hv : (p.getD m 0 ||| 2 ^ k) % 256 = p.getD m 0 ||| 2 ^ k :=
    Nat.mod_eq_of_lt (or_bit_lt _ _ hb hk)
  constructor
  · intro b hbm
    rcases List.mem_or_eq_of_mem_set hbm with h | h
    · exact hbytes b h
    · rw [h]; exact Nat.mod_lt _ (by decide)
  · intro n c
    rw [getD_set p m n _ hm, hv]
    by_cases hn : n = m
    · subst hn
      simp only [if_true, Nat.testBit_or, Nat.testBit_two_pow, true_and]
      by_cases hc : c = k
      · subst hc; simp
      · have : ¬ k = c := fun e => hc e.symm
        simp [hc, this]
    · simp [hn]

/-! ## The width table -/

theorem forLoop_append {σ : Type} (body : Int → σ → Except Halt σ) (xs ys : List Int) :
    ∀ s, forLoop body (xs ++ ys) s =
      match forLoop body xs s with
      | .ok t => forLoop body ys t
      | .error e => .error e := by
  induction xs with
  | nil => intro s; rfl
  | cons x xs ih =>
    intro s
    simp only [List.cons_append, forLoop]
    cases body x s with
    | error e => rfl
    | ok t => exact ih t

theorem widthByte_eq (g : Glyph) : (widthByte g : Int) = (g.advance_x / 64) % 256 := by
  unfold widthByte
  have e : g.advance_x >>> (6 : Nat) = g.advance_x / 64 :=
    Int.shiftRight_eq_div_pow g.advance_x 6
  rw [e]
  exact Int.toNat_of_nonneg (Int.emod_nonneg _ (by decide))

theorem packChar_widths (ft : FreeType) (s : Sizing) (ch : Int) (f v : UG_FONT)
    (h : packChar ft s ch f = .ok v) :
    ∃ g, ft.loadChar Pass.packing ch = some g ∧
      v.widths = f.widths.set (ch - minChar).toNat (widthByte g) := by
  unfold packChar at h
  split at h
  · cases h
  · rename_i g hg
    split at h
    · cases h
    · simp only [Except.ok.injEq] at h
      subst h
      exact ⟨g, hg, rfl⟩

theorem forLoop_packChar_shape (ft : FreeType) (s : Sizing) (xs : List Int) (f g : UG_FONT)
    (h : forLoop (packChar ft s) xs f = .ok g) : sameShape f g := by
  refine forLoop_keeps _ (fun u => sameShape f u) _ ?_ f g ?_ h
  · intro ch _ u v hu hv
    exact sameShape_trans hu (packChar_shape ft s ch u v hv)
  · exact ⟨rfl, rfl, rfl, rfl, rfl, rfl, rfl⟩

/-- After the packing loop has run over the codes `xs`, the width entry of each of them
holds the width byte of the glyph loaded for it. -/
theorem packing_widths (ft : FreeType) (s : Sizing) (xs : List Int) :
    (∀ x ∈ xs, 32 ≤ x) → ∀ f v, forLoop (packChar ft s) xs f = .ok v →
      ∀ ch ∈ xs, (ch - minChar).toNat < f.widths.length →
        ∃ g, ft.loadChar Pass.packing ch = some g ∧
          v.widths.getD (ch - minChar).toNat 0 = widthByte g := by
  induction xs using List.reverseRecOn with
  | nil => intro _ f v _ ch hch; cases hch
  | append_singleton xs x ih =>
    intro hxs f v hv ch hch hlen
    rw [forLoop_append] at hv
    cases ht : forLoop (packChar ft s) xs f with
    | error e => rw [ht] at hv; cases hv
    | ok t =>
      rw [ht] at hv
      simp only [forLoop] at hv
      cases hb : packChar ft s x t with
      | error e => rw [hb] at hv; cases hv
      | ok u =>
        rw [hb] at hv
        simp only [Except.ok.injEq] at hv
        subst hv
        obtain ⟨gx, hgx, hw⟩ := packChar_widths ft s x t u hb
        have hshape := forLoop_packChar_shape ft s xs f t ht
        have htl : t.widths.length = f.widths.length := hshape.2.1
        have hx32 : 32 ≤ x := hxs x (by simp)
        have hc32 : 32 ≤ ch := hxs ch hch
        rw [hw]
        by_cases hcx : ch = x
        · subst hcx
          exact ⟨gx, hgx, by rw [getD_set _ _ _ _ (by omega), if_pos rfl]⟩
        · have hne : (ch - minChar).toNat ≠ (x - minChar).toNat := by
            simp only [minChar]; omega
          have hmem : ch ∈ xs := by
            rcases List.mem_append.mp hch with h | h
            · exact h
            · simp only [List.mem_singleton] at h; exact absurd h hcx
          obtain ⟨g, hg, hval⟩ := ih (fun y hy => hxs y (List.mem_append_left _ hy)) f t ht
            ch hmem hlen
          refine ⟨g, hg, ?_⟩
          by_cases hx : (x - minChar).toNat < t.widths.length
          · rw [getD_set _ _ _ _ hx, if_neg hne]; exact hval
          · rw [List.set_eq_of_length_le (by omega)]; exact hval

/-- A font returned by `convertFont` comes out of the two passes. -/
theorem convertFont_ok (ft : FreeType) (font : String) (dpi : Int) (fontSize : Rat)
    (f : UG_FONT) (h : convertFont ft font dpi fontSize = .ok f) :
    ∃ s, sizingPass ft = .ok s ∧ packingPass ft s (allocFont s) = .ok f := by
  unfold convertFont at h
  split_ifs at h
  all_goals
    split at h
    · cases h
    · rename_i s hs
      exact ⟨s, hs, h⟩

/-! ## Failing loads -/

theorem forLoop_error {σ : Type} (body : Int → σ → Except Halt σ) (xs : List Int) :
    ∀ s e, forLoop body xs s = .error e → ∃ x ∈ xs, ∃ t, body x t = .error e := by
  induction xs with
  | nil => intro s e h; cases h
  | cons x xs ih =>
    intro s e h
    simp only [forLoop] at h
    cases hb : body x s with
    | error e2 =>
      rw [hb] at h
      simp only [Except.error.injEq] at h
      exact ⟨x, List.mem_cons_self x xs, s, h ▸ hb⟩
    | ok t =>
      rw [hb] at h
      obtain ⟨y, hy, u, hu⟩ := ih t e h
      exact ⟨y, List.mem_cons_of_mem x hy, u, hu⟩

theorem packPixel_error (s : Sizing) (ch : Int) (g : Glyph) (i j : Int) (p : List Nat)
    (e : Halt) (h : packPixel s ch g i j p = .error e) : e = Halt.undefined := by
  unfold packPixel at h
  split at h
  · simp only at h
    split at h
    · simp only [Except.error.injEq] at h; exact h.symm
    · split at h
      · simp only [Except.error.injEq] at h; exact h.symm
      · cases h
  · cases h

theorem packGlyph_error (s : Sizing) (ch : Int) (g : Glyph) (p : List Nat) (e : Halt)
    (h : packGlyph s ch g p = .error e) : e = Halt.undefined := by
  unfold packGlyph at h
  obtain ⟨i, _, q, hq⟩ := forLoop_error _ _ _ _ h
  unfold packRow at hq
  obtain ⟨j, _, r, hr⟩ := forLoop_error _ _ _ _ hq
  exact packPixel_error s ch g i j r e hr

theorem packChar_error (ft : FreeType) (s : Sizing) (ch : Int) (f : UG_FONT) (e : Halt)
    (h : packChar ft s ch f = .error e) : e = Halt.exit 1 ∨ e = Halt.undefined := by
  unfold packChar at h
  split at h
  · simp only [Except.error.injEq] at h; exact Or.inl h.symm
  · split at h
    · rename_i e2 he2
      simp only [Except.error.injEq] at h
      exact Or.inr (h ▸ packGlyph_error _ _ _ _ _ he2)
    · cases h

theorem sizingBody_error (ft : FreeType) (ch : Int) (s : Sizing) (e : Halt)
    (h : sizingBody ft ch s = .error e) : e = Halt.exit 1 := by
  unfold sizingBody at h
  split at h
  · simp only [Except.error.injEq] at h; exact h.symm
  · cases h

/-- A load that fails in the sizing pass stops that pass with `exit(1)`. -/
theorem sizingPass_missing (ft : FreeType) (ch : Int) (h1 : 32 ≤ ch) (h2 : ch ≤ 126)
    (h : ft.loadChar Pass.sizing ch = none) : sizingPass ft = .error (Halt.exit 1) := by
  unfold sizingPass
  refine forLoop_exit_one _ _ ch ?_ ?_ (sizingBody_error ft) _
  · rw [mem_interval]; simp only [minChar, maxChar]; omega
  · intro s; simp [sizingBody, h]

/-- A load that fails in the packing pass keeps that pass from returning a font. -/
theorem packingPass_missing (ft : FreeType) (ch : Int) (h1 : 32 ≤ ch) (h2 : ch ≤ 126)
    (h : ft.loadChar Pass.packing ch = none) (s : Sizing) (f v : UG_FONT) :
    packingPass ft s f ≠ .ok v := by
  unfold packingPass
  refine forLoop_fails _ _ ch ?_ ?_ f v
  · rw [mem_interval]; simp only [minChar, maxChar]; omega
  · intro u w hw
    simp [packChar, h] at hw

theorem convertFont_error (ft : FreeType) (font : String) (dpi : Int) (fontSize : Rat)
    (e : Halt) (h : convertFont ft font dpi fontSize = .error e) :
    e = Halt.exit 1 ∨ e = Halt.undefined := by
  unfold convertFont at h
  split_ifs at h
  any_goals (simp only [Except.error.injEq] at h; exact Or.inl h.symm)
  all_goals
    split at h
    · rename_i e2 he2
      simp only [Except.error.injEq] at h
      unfold sizingPass at he2
      obtain ⟨x, _, t, ht⟩ := forLoop_error _ _ _ _ he2
      exact Or.inl (h ▸ sizingBody_error ft x t e2 ht)
    · unfold packingPass at h
      obtain ⟨x, _, t, ht⟩ := forLoop_error _ _ _ _ h
      exact packChar_error ft _ x t e ht

theorem convertFont_missing (ft : FreeType) (pass : Pass) (ch : Int) (h1 : 32 ≤ ch)
    (h2 : ch ≤ 126) (h : ft.loadChar pass ch = none) (font : String) (dpi : Int)
    (fontSize : Rat) (f : UG_FONT) : convertFont ft font dpi fontSize ≠ .ok f := by
  intro hf
  obtain ⟨s, hs, hp⟩ := convertFont_ok ft font dpi fontSize f hf
  cases pass with
  | sizing => rw [sizingPass_missing ft ch h1 h2 h] at hs; cases hs
  | packing => exact packingPass_missing ft ch h1 h2 h s _ f hp

theorem convertFont_missing_sizing (ft : FreeType) (ch : Int) (h1 : 32 ≤ ch)
    (h2 : ch ≤ 126) (h : ft.loadChar Pass.sizing ch = none) (font : String) (dpi : Int)
    (fontSize : Rat) : convertFont ft font dpi fontSize = .error (Halt.exit 1) := by
  unfold convertFont
  rw [sizingPass_missing ft ch h1 h2 h]
  split_ifs <;> rfl

/-- A run whose conversion returns no font opens no file and shows nothing; it ends with
the status of the conversion or with `exit(1)`. -/
theorem main_no_font (o : Options) (ft : FreeType) (canOpen : String → Bool)
    (h : ∀ font dpi fontSize f, convertFont ft font dpi fontSize ≠ .ok f) :
    (∀ e ∈ (main o ft canOpen).1, e = Event.usage) ∧
      ((main o ft canOpen).2 = Halt.exit 1 ∨ (main o ft canOpen).2 = Halt.undefined) ∧
      ((∀ font dpi fontSize, convertFont ft font dpi fontSize = .error (Halt.exit 1)) →
        (main o ft canOpen).2 = Halt.exit 1) := by
  unfold main
  split
  · simp
  · split
    · simp
    · rename_i fontFile _
      split
      · simp
      · split
        · rename_i e he
          refine ⟨by simp, convertFont_error ft _ _ _ e he, ?_⟩
          intro hall
          rw [hall] at he
          simp only [Except.error.injEq] at he
          exact he.symm
        · rename_i font hfont
          exact absurd hfont (h _ _ _ _)

/-! ## A cell fixed by its maxima -/

theorem eq_of_isMaxOverRange (f : Int → Int) (m c : Int) (hm : IsMaxOverRange f m)
    (h0 : 0 ≤ m) (hb : ∀ ch, 32 ≤ ch → ch ≤ 126 → f ch ≤ c)
    (ha : c = 0 ∨ ∃ ch ∈ interval minChar (maxChar + 1), f ch = c) : c = m := by
  obtain ⟨b, c0, l, u, e⟩ := hm
  have h1 := hb c0 l u
  rcases ha with h | ⟨ch, hch, h⟩
  · omega
  · rw [mem_interval] at hch
    simp only [minChar, maxChar] at hch
    have h2 := b ch hch.1 (by omega)
    omega

theorem cellOf_eq (table : Int → Glyph) (w a d : Int) (hw0 : 0 ≤ w) (ha0 : 0 ≤ a)
    (hd0 : 0 ≤ d)
    (hw : IsMaxOverRange (fun ch => (table ch).width) w)
    (ha : IsMaxOverRange (fun ch => glyphAscent (table ch)) a)
    (hd : IsMaxOverRange (fun ch => glyphDescent (table ch)) d) :
    cellOf table = ⟨w, a, d⟩ := by
  obtain ⟨a1, a2, a3⟩ := sizeOver_attained table (interval minChar (maxChar + 1)) ⟨0, 0, 0⟩
  have e1 : (cellOf table).maxWidth = w :=
    eq_of_isMaxOverRange _ w _ hw hw0 (fun ch h1 h2 => (cellOf_bound table ch h1 h2).1) a1
  have e2 : (cellOf table).maxAscent = a :=
    eq_of_isMaxOverRange _ a _ ha ha0 (fun ch h1 h2 => (cellOf_bound table ch h1 h2).2.1) a2
  have e3 : (cellOf table).maxDescent = d :=
    eq_of_isMaxOverRange _ d _ hd hd0 (fun ch h1 h2 => (cellOf_bound table ch h1 h2).2.2) a3
  have e : cellOf table =
      ⟨(cellOf table).maxWidth, (cellOf table).maxAscent, (cellOf table).maxDescent⟩ := rfl
  rw [e, e1, e2, e3]

/-! ## The bits set by the packing pass -/

theorem upFrom_succ_snoc (n : Nat) : ∀ lo : Int, upFrom lo (n + 1) = upFrom lo n ++ [lo + n] := by
  induction n with
  | zero => intro lo; simp [upFrom]
  | succ n ih =>
    intro lo
    rw [upFrom, ih (lo + 1)]
    simp only [upFrom, List.cons_append, List.cons.injEq, true_and]
    congr 2
    push_cast
    ring

/-- A loop whose iteration number `k` appends the texts `T k` and advances `current` by `d`
appends the texts of all its iterations. -/
theorem forLoop_emit (body : Int → Emit → Except Halt Emit) (T : Nat → List String)
    (d : Int) (lo c0 : Int) (n : Nat)
    (h : ∀ k, k < n → ∀ out, body (lo + k) ⟨out, c0 + k * d⟩ =
      .ok ⟨out ++ T k, c0 + (k + 1) * d⟩) :
    ∀ out, forLoop body (upFrom lo n) ⟨out, c0⟩ =
      .ok ⟨out ++ (List.range n).flatMap T, c0 + n * d⟩ := by
  induction n with
  | zero => intro out; simp [upFrom, forLoop]
  | succ n ih =>
    intro out
    rw [upFrom_succ_snoc, forLoop_append, ih (fun k hk => h k (by omega)) out]
    simp only [forLoop]
    rw [h n (by omega)]
    simp only [List.range_succ, List.flatMap_append, List.flatMap_cons, List.flatMap_nil,
      List.append_nil, List.append_assoc]
    congr 2

theorem hex02_byte : ∀ b, b < 256 → "0x" ++ String.mk (hex02 b) = specHexLiteral b := by
  decide

/-- The loop over `b` prints the byte literals of row `k` and leaves `current` at the
start of the next row, when the row lies inside the block. -/
theorem dumpRow_spec (font : UG_FONT) (bpc k : Nat) (hbytes : ∀ b ∈ font.p, b < 256)
    (hin : (k + 1) * bpc ≤ font.p.length) (out : List String) :
    forLoop (dumpByte font) (upFrom 0 bpc) ⟨out, (k * bpc : Nat)⟩ =
      .ok ⟨out ++ specRowLiterals font.p bpc k, ((k + 1) * bpc : Nat)⟩ := by
  have key := forLoop_emit (dumpByte font)
    (fun b => (if b = 0 then [] else [","]) ++
      [specHexLiteral (font.p.getD (k * bpc + b) 0)]) 1 0 (k * bpc : Nat) bpc ?_ out
  · rw [key]
    unfold specRowLiterals
    congr 2
    push_cast
    ring
  · intro b hb out2
    have hm : (k + 1) * bpc = k * bpc + bpc := by ring
    have hidx : k * bpc + b < font.p.length := by omega
    have hcur : ((k * bpc : Nat) : Int) + (b : Int) * 1 = ((k * bpc + b : Nat) : Int) := by
      push_cast; ring
    unfold dumpByte
    simp only [hcur]
    rw [if_neg (by omega)]
    have hbyte : font.p.getD (k * bpc + b) 0 < 256 := by
      rw [List.getD_eq_getElem _ _ hidx]
      exact hbytes _ (List.getElem_mem hidx)
    simp only [Int.toNat_ofNat, hex02_byte _ hbyte]
    congr 2
    · by_cases hb0 : b = 0
      · subst hb0; simp
      · have : ((0 : Int) + (b : Int)) ≠ 0 := by omega
        simp [hb0, this]
    · push_cast; ring

theorem dumpBytesPerChar_eq (font : UG_FONT) (hw : 0 ≤ font.char_width) :
    dumpBytesPerChar font = (font.char_width + 7) / 8 * font.char_height := by
  unfold dumpBytesPerChar
  rw [Int.tmod_eq_emod hw (by decide), Int.tdiv_eq_ediv hw (by decide)]
  split
  · have e : (font.char_width + 7) / 8 = font.char_width / 8 + 1 := by omega
    rw [e]; ring
  · have e : (font.char_width + 7) / 8 = font.char_width / 8 := by omega
    rw [e]; ring

/-- The rows printed by `dumpFont` for a font whose block holds the bytes of its rows:
those of the specification, with `current` ending at the size of the block. -/
theorem dumpBits_spec (font : UG_FONT) (rows bpc : Nat)
    (hrows : font.end_char + 1 - font.start_char = rows)
    (hbpc : dumpBytesPerChar font = bpc)
    (hbytes : ∀ b ∈ font.p, b < 256) (hlen : font.p.length = rows * bpc) :
    dumpBits font = .ok ⟨specBitsRows font rows bpc, font.p.length⟩ := by
  unfold dumpBits interval
  rw [hrows, Int.toNat_ofNat]
  have key := forLoop_emit (dumpChar font)
    (fun k => ["  \x7b"] ++ specRowLiterals font.p bpc k ++ rowTail font (font.start_char + k))
    bpc font.start_char 0 rows ?_ []
  · rw [key, hlen]
    unfold specBitsRows
    simp only [List.nil_append]
    congr 2
    push_cast
    ring
  · intro k hk out
    have hin : (k + 1) * bpc ≤ font.p.length := by
      rw [hlen]; exact Nat.mul_le_mul_right bpc (by omega)
    have hrow := dumpRow_spec font bpc k hbytes hin (out ++ ["  \x7b"])
    have hc0 : (0 : Int) + (k : Int) * (bpc : Int) = ((k * bpc : Nat) : Int) := by
      push_cast; ring
    have hc1 : (0 : Int) + ((k : Int) + 1) * (bpc : Int) = (((k + 1) * bpc : Nat) : Int) := by
      push_cast; ring
    unfold dumpChar interval
    simp only [hbpc, Int.sub_zero, Int.toNat_ofNat, hc0, hc1, hrow]
    simp only [List.append_assoc]

theorem dumpWidth_appends (font : UG_FONT) (ch : Int) (out out2 : List String)
    (h : dumpWidth font ch out = .ok out2) : ∃ extra, out2 = out ++ extra := by
  unfold dumpWidth at h
  split at h
  · cases h
  · simp only [Except.ok.injEq] at h
    exact ⟨_, by rw [← h, List.append_assoc]⟩

/-- The texts printed to the `.c` file contain the declaration of the bitmap table followed
by the rows printed by the loop over `ch`. -/
theorem dumpDefinitions_rows (font : UG_FONT) (fontFile fontName : String) (fontSize : Rat)
    (dpi : Int) (bits : Emit) (texts : List String) (hb : dumpBits font = .ok bits)
    (h : dumpDefinitions font fontFile fontName fontSize dpi = .ok texts) :
    ∃ pre post, texts = pre ++
      ["static __UG_FONT_DATA unsigned char fontBits_" ++ fontName ++ "[" ++
        toString (font.end_char - font.start_char + 1) ++ "][" ++
        toString (dumpBytesPerChar font) ++ "] = \x7b\n"] ++ bits.out ++ post := by
  unfold dumpDefinitions at h
  split at h
  · cases h
  · simp only [hb] at h
    split at h
    · cases h
    · rename_i out hout
      simp only [Except.ok.injEq] at h
      have hkeep := forLoop_keeps (dumpWidth font)
        (fun o => ∃ extra, o = (dumpHeader font fontFile fontName fontSize dpi ++ bits.out ++
            ["\x7d;\n", "static const UG_U8 fontWidths_" ++ fontName ++ "[] = \x7b\n"]) ++
          extra)
        _ ?_ _ out ⟨[], by simp⟩ hout
      · obtain ⟨extra, he⟩ := hkeep
        refine ⟨["// Converted from " ++ fontFile ++ "\n",
            "//  --size " ++ toString (sizeAsInt fontSize) ++ "\n"] ++
          (if dpi > 0 then ["//  --dpi " ++ toString dpi ++ "\n"] else []) ++
          ["// For copyright, see original font file.\n", "\n#include \"ugui.h\"\n\n"],
          ["\x7d;\n", "static const UG_U8 fontWidths_" ++ fontName ++ "[] = \x7b\n"] ++ extra ++
            ["\x7d;\n",
              "const UG_FONT font_" ++ fontName ++ " = \x7b (unsigned char*)fontBits_" ++
                fontName ++ ", FONT_TYPE_1BPP, " ++ toString font.char_width ++ ", " ++
                toString font.char_height ++ ", " ++ toString font.start_char ++ ", " ++
                toString font.end_char ++ ", fontWidths_" ++ fontName ++ " \x7d;\n"], ?_⟩
        rw [← h, he]
        simp only [dumpHeader, List.append_assoc, List.cons_append, List.nil_append]
      · intro ch _ o o2 ⟨extra, he⟩ ho
        obtain ⟨extra2, he2⟩ := dumpWidth_appends font ch o o2 ho
        exact ⟨extra ++ extra2, by rw [he2, he, List.append_assoc]⟩

/-- The indices `k * bytesPerChar + b` of the bytes listed by the rows, in the order of the
rows, are the indices of the block in increasing order. -/
theorem row_indices (bpc : Nat) : ∀ rows : Nat,
    (List.range rows).flatMap (fun k => (List.range bpc).map (fun b => k * bpc + b)) =
      List.range (rows * bpc) := by
  intro rows
  induction rows with
  | zero => simp
  | succ r ih =>
    rw [List.range_succ, List.flatMap_append, ih, Nat.succ_mul, List.range_add]
    simp

/-! ## Artifact names -/

theorem digitChar_val : ∀ m, m < 10 →
    (Nat.digitChar m).toNat - 48 = m ∧ Nat.digitChar m ≠ 'X' := by
  decide

/-- Reading the decimal digits printed for `n` gives `n` back. -/
theorem decode_toDigitsCore (fuel : Nat) : ∀ (n : Nat) (ds : List Char), n < fuel →
    (Nat.toDigitsCore 10 fuel n ds).foldl (fun a c => 10 * a + (c.toNat - 48)) 0 =
      ds.foldl (fun a c => 10 * a + (c.toNat - 48)) n := by
  induction fuel with
  | zero => intro n ds h; omega
  | succ fuel ih =>
    intro n ds h
    have hd := (digitChar_val (n % 10) (Nat.mod_lt n (by decide))).1
    simp only [Nat.toDigitsCore]
    split
    · rename_i h0
      simp only [List.foldl_cons, hd]
      congr 1
      omega
    · rename_i h0
      rw [ih (n / 10) _ (by omega)]
      simp only [List.foldl_cons, hd]
      congr 1
      omega

theorem toDigits_injective (m n : Nat) (h : Nat.toDigits 10 m = Nat.toDigits 10 n) :
    m = n := by
  have hm := decode_toDigitsCore (m + 1) m [] (by omega)
  have hn := decode_toDigitsCore (n + 1) n [] (by omega)
  unfold Nat.toDigits at h
  rw [h, hn] at hm
  exact hm.symm

theorem toDigitsCore_noX (fuel : Nat) : ∀ (n : Nat) (ds : List Char), 'X' ∉ ds →
    'X' ∉ Nat.toDigitsCore 10 fuel n ds := by
  induction fuel with
  | zero => intro n ds h; exact h
  | succ fuel ih =>
    intro n ds h
    have hd := (digitChar_val (n % 10) (Nat.mod_lt n (by decide))).2
    have hcons : 'X' ∉ Nat.digitChar (n % 10) :: ds := by
      intro hmem
      rcases List.mem_cons.mp hmem with e | e
      · exact hd e.symm
      · exact h e
    simp only [Nat.toDigitsCore]
    split
    · exact hcons
    · exact ih _ _ hcons

theorem toString_natCast_data (n : Nat) : (toString (n : Int)).data = Nat.toDigits 10 n :=
  rfl

theorem split_at (x : Char) : ∀ (l1 l2 r1 r2 : List Char), x ∉ l1 → x ∉ l2 →
    l1 ++ x :: r1 = l2 ++ x :: r2 → l1 = l2 ∧ r1 = r2 := by
  intro l1
  induction l1 with
  | nil =>
    intro l2 r1 r2 _ h2 h
    cases l2 with
    | nil => simp at h; exact ⟨rfl, h⟩
    | cons a l2 =>
      simp only [List.nil_append, List.cons_append, List.cons.injEq] at h
      exact absurd (h.1 ▸ List.mem_cons_self _ _) h2
  | cons a l1 ih =>
    intro l2 r1 r2 h1 h2 h
    cases l2 with
    | nil =>
      simp only [List.nil_append, List.cons_append, List.cons.injEq] at h
      exact absurd (h.1 ▸ List.mem_cons_self _ _) h1
    | cons b l2 =>
      simp only [List.cons_append, List.cons.injEq] at h
      obtain ⟨e1, e2⟩ := ih l2 r1 r2 (fun hm => h1 (List.mem_cons_of_mem _ hm))
        (fun hm => h2 (List.mem_cons_of_mem _ hm)) h.2
      exact ⟨by rw [h.1, e1], e2⟩

/-- The text `<width>X<height>` determines the two non-negative numbers. -/
theorem sizeText_injective (w1 h1 w2 h2 : Nat) (rest : List Char)
    (h : Nat.toDigits 10 w1 ++ 'X' :: (Nat.toDigits 10 h1 ++ rest) =
      Nat.toDigits 10 w2 ++ 'X' :: (Nat.toDigits 10 h2 ++ rest)) : w1 = w2 ∧ h1 = h2 := by
  obtain ⟨e1, e2⟩ := split_at 'X' _ _ _ _
    (toDigitsCore_noX _ _ [] (by simp)) (toDigitsCore_noX _ _ [] (by simp)) h
  exact ⟨toDigits_injective _ _ e1, toDigits_injective _ _ (List.append_cancel_right e2)⟩

theorem artifactName_injective (fontFile suffix : String) (f1 f2 : UG_FONT)
    (hw1 : 0 ≤ f1.char_width) (hh1 : 0 ≤ f1.char_height)
    (hw2 : 0 ≤ f2.char_width) (hh2 : 0 ≤ f2.char_height)
    (h : artifactName fontFile f1 suffix = artifactName fontFile f2 suffix) :
    f1.char_width = f2.char_width ∧ f1.char_height = f2.char_height := by
  obtain ⟨a1, ea1⟩ := Int.eq_ofNat_of_zero_le hw1
  obtain ⟨b1, eb1⟩ := Int.eq_ofNat_of_zero_le hh1
  obtain ⟨a2, ea2⟩ := Int.eq_ofNat_of_zero_le hw2
  obtain ⟨b2, eb2⟩ := Int.eq_ofNat_of_zero_le hh2
  have hd := congrArg String.data h
  simp only [artifactName, String.data_append, ea1, eb1, ea2, eb2, toString_natCast_data,
    List.append_assoc] at hd
  have hd2 := List.append_cancel_left hd
  have hd3 := List.append_cancel_left hd2
  simp only [List.singleton_append] at hd3
  obtain ⟨e1, e2⟩ := sizeText_injective a1 b1 a2 b2 suffix.data hd3
  rw [ea1, eb1, ea2, eb2, e1, e2]
  exact ⟨rfl, rfl⟩

/-- For a font whose blocks have the sizes `convertFont` gives them, the texts of the `.c`
file are printed without leaving defined behaviour. -/
theorem dumpDefinitions_returns (font : UG_FONT) (fontFile fontName : String)
    (fontSize : Rat) (dpi : Int)
    (hw : 0 ≤ font.char_width) (hh : 0 ≤ font.char_height)
    (hrange : font.start_char ≤ font.end_char + 1)
    (hbytes : ∀ b ∈ font.p, b < 256)
    (hlen : (font.p.length : Int) =
      (font.end_char - font.start_char + 1) * dumpBytesPerChar font)
    (hwidths : (font.widths.length : Int) = font.end_char - font.start_char + 1)
    (hsize : -2147483648 ≤ sizeAsInt fontSize ∧ sizeAsInt fontSize ≤ 2147483647) :
    ∃ texts, dumpDefinitions font fontFile fontName fontSize dpi = .ok texts := by
  have hq : dumpBytesPerChar font = (font.char_width + 7) / 8 * font.char_height :=
    dumpBytesPerChar_eq font hw
  have hb0 : 0 ≤ dumpBytesPerChar font := by
    rw [hq]; exact Int.mul_nonneg (by omega) hh
  have hr0 : 0 ≤ font.end_char - font.start_char + 1 := by omega
  have hlenN : font.p.length =
      (font.end_char - font.start_char + 1).toNat * (dumpBytesPerChar font).toNat := by
    have e : ((font.p.length : Nat) : Int) =
        (((font.end_char - font.start_char + 1).toNat *
          (dumpBytesPerChar font).toNat : Nat) : Int) := by
      push_cast
      rw [Int.toNat_of_nonneg hr0, Int.toNat_of_nonneg hb0]
      exact hlen
    exact_mod_cast e
  have hbits := dumpBits_spec font (font.end_char - font.start_char + 1).toNat
    (dumpBytesPerChar font).toNat (by omega) (by omega) hbytes hlenN
  unfold dumpDefinitions
  rw [if_neg (by omega)]
  simp only [hbits]
  have step : ∀ ch ∈ interval font.start_char (font.end_char + 1), ∀ o : List String,
      True → ∃ t, dumpWidth font ch o = .ok t ∧ True := by
    intro ch hch o _
    rw [mem_interval] at hch
    unfold dumpWidth
    rw [if_neg (by omega)]
    exact ⟨_, rfl, trivial⟩
  obtain ⟨out, hout, _⟩ := forLoop_total (dumpWidth font) (fun _ => True)
    (interval font.start_char (font.end_char + 1)) step
    (dumpHeader font fontFile fontName fontSize dpi ++
      specBitsRows font (font.end_char - font.start_char + 1).toNat
        (dumpBytesPerChar font).toNat ++
      ["\x7d;\n", "static const UG_U8 fontWidths_" ++ fontName ++ "[] = \x7b\n"]) trivial
  rw [hout]
  exact ⟨_, rfl⟩

/-! ## The base name -/

/-- A prefix whose elements all pass the test, followed by nothing or by an element that
fails it, is what `takeWhile` keeps. -/
theorem takeWhile_front {α : Type} (p : α → Bool) (l1 l2 : List α)
    (h1 : ∀ a ∈ l1, p a = true) (h2 : l2 = [] ∨ ∃ a t, l2 = a :: t ∧ p a = false) :
    (l1 ++ l2).takeWhile p = l1 := by
  rw [List.takeWhile_append_of_pos h1]
  rcases h2 with h | ⟨a, t, h, hp⟩
  · rw [h]; simp
  · rw [h, List.takeWhile_cons_of_neg (by simp [hp])]; simp

/-- What `dropWhile` leaves is empty or starts with an element that fails the test. -/
theorem dropWhile_head {α : Type} (p : α → Bool) (l : List α) :
    l.dropWhile p = [] ∨ ∃ a t, l.dropWhile p = a :: t ∧ p a = false := by
  induction l with
  | nil => left; rfl
  | cons a t ih =>
    by_cases h : p a = true
    · rw [List.dropWhile_cons_of_pos h]; exact ih
    · right
      rw [List.dropWhile_cons_of_neg h]
      exact ⟨a, t, rfl, by simpa using h⟩

/-- When the path is `dir ++ name ++ ext`, `dir` empty or ending with a slash, `name` free
of slashes and dots, `ext` free of slashes and empty or starting with a dot, `baseName` is
`name`. -/
theorem baseName_eq (fontFile : String) (dir name ext : List Char)
    (hsplit : fontFile.data = dir ++ (name ++ ext))
    (hdir : dir = [] ∨ ∃ d, dir = d ++ ['/'])
    (hname1 : '/' ∉ name) (hname2 : '.' ∉ name) (hext1 : '/' ∉ ext)
    (hext2 : ext = [] ∨ ∃ e, ext = '.' :: e) :
    baseName fontFile = name := by
  unfold baseName
  rw [hsplit, List.reverse_append]
  rw [takeWhile_front _ (name ++ ext).reverse dir.reverse, List.reverse_reverse]
  · apply takeWhile_front
    · intro a ha
      simp only [bne_iff_ne, ne_eq]
      rintro rfl
      exact hname2 ha
    · rcases hext2 with h | ⟨e, h⟩
      · exact Or.inl h
      · exact Or.inr ⟨'.', e, h, by decide⟩
  · intro a ha
    simp only [bne_iff_ne, ne_eq]
    rintro rfl
    rw [List.mem_reverse, List.mem_append] at ha
    rcases ha with ha | ha
    · exact hname1 ha
    · exact hext1 ha
  · rcases hdir with h | ⟨d, h⟩
    · exact Or.inl (by rw [h]; rfl)
    · exact Or.inr ⟨'/', d.reverse, by rw [h]; simp, by decide⟩

/-- Every path splits into a directory part, a name and a suffix in that way. -/
theorem baseName_split (fontFile : String) :
    ∃ dir name ext : List Char, fontFile.data = dir ++ (name ++ ext) ∧
      (dir = [] ∨ ∃ d, dir = d ++ ['/']) ∧ '/' ∉ name ∧ '.' ∉ name ∧ '/' ∉ ext ∧
      (ext = [] ∨ ∃ e, ext = '.' :: e) := by
  have hrest : ∀ a ∈ (fontFile.data.reverse.takeWhile (fun c => c != '/')).reverse,
      a ≠ '/' := by
    intro a ha
    rw [List.mem_reverse] at ha
    simpa using List.mem_takeWhile_imp ha
  refine ⟨(fontFile.data.reverse.dropWhile (fun c => c != '/')).reverse,
    ((fontFile.data.reverse.takeWhile (fun c => c != '/')).reverse).takeWhile
      (fun c => c != '.'),
    ((fontFile.data.reverse.takeWhile (fun c => c != '/')).reverse).dropWhile
      (fun c => c != '.'), ?_, ?_, ?_, ?_, ?_, ?_⟩
  · rw [List.takeWhile_append_dropWhile, ← List.reverse_append,
      List.takeWhile_append_dropWhile, List.reverse_reverse]
  · rcases dropWhile_head (fun c => c != '/') fontFile.data.reverse with h | ⟨a, t, h, hp⟩
    · left; rw [h]; rfl
    · right
      have ha : a = '/' := by simpa using hp
      exact ⟨t.reverse, by rw [h, ha]; simp⟩
  · intro h
    exact hrest _ ((List.takeWhile_sublist _).subset h) rfl
  · intro h
    have := List.mem_takeWhile_imp h
    simp at this
  · intro h
    exact hrest _ ((List.dropWhile_sublist _).subset h) rfl
  · rcases dropWhile_head (fun c => c != '.')
      (fontFile.data.reverse.takeWhile (fun c => c != '/')).reverse with h | ⟨a, t, h, hp⟩
    · left; exact h
    · right
      have ha : a = '.' := by simpa using hp
      exact ⟨t, by rw [h, ha]⟩

/-! ## Claims -/

/-- C1, evaluated at a failing input.  When every code renders as a one-pixel glyph with
`bitmap_left = 1`, the sizing pass yields a cell one pixel wide, the only source pixel of
each glyph gets `xpos = 1`, which is not below the cell width, and `convertFont` stores the
pixel in bit 1 of the byte, outside the one-pixel-wide cell. -/
theorem bounding_completeness_fails :
    sizingPass (tableFreeType shiftedDots) = .ok ⟨1, 1, 0⟩ ∧
      xpos (shiftedDots 65) 0 = 1 ∧
      ¬ (xpos (shiftedDots 65) 0 < (cellOf shiftedDots).maxWidth) ∧
      convertFont (tableFreeType shiftedDots) "font.ttf" 0 8 =
        .ok ⟨List.replicate 95 2, FONT_TYPE.FONT_TYPE_1BPP, 1, 1, 32, 126,
          List.replicate 95 2⟩ := by
  decide

/-- C2, evaluated at a failing input.  In `spillTable` the only source pixel of the space
character is unset, yet the bit of the store addressed by its destination (byte
`(32-32)*bytesPerChar + ypos*bytesPerRow + xpos/8 = 1`, bit `xpos % 8 = 0`) is 1 after
`convertFont`: the byte belongs to the next character, whose own pixel set it. -/
theorem round_trip_fails :
    convertFont (tableFreeType spillTable) "font.ttf" 0 8 =
        .ok ⟨0 :: List.replicate 94 1, FONT_TYPE.FONT_TYPE_1BPP, 1, 1, 32, 126,
          List.replicate 95 1⟩ ∧
      sourceBit (spillTable 32) 0 0 = false ∧
      destIndex (cellOf spillTable) 32 (spillTable 32) 0 0 = 1 ∧
      Int.tmod (xpos (spillTable 32) 0) 8 = 0 ∧
      ((0 :: List.replicate 94 1).getD 1 0).testBit 0 = true := by
  decide

/-- C4.  For a glyph table over 32..126 whose glyphs have `rows >= 0` and `width >= 0`,
the sizing pass returns a cell in which `maxWidth` is the maximum of the glyph widths,
`maxDescent` the maximum of `max(0, rows - bitmap_top)` and `maxAscent` the maximum of
`max(0, bitmap_top)`; the per-glyph formula `max(0, max(bitmap_top, rows) - descent)` of
the code equals `max(0, bitmap_top)` for every glyph; and the font assembled from the cell,
like every font `convertFont` returns, has `char_width = maxWidth` and
`char_height = maxAscent + maxDescent`. -/
theorem cell_sizing (table : Int → Glyph) (font : String) (dpi : Int) (fontSize : Rat)
    (h : ∀ ch, 32 ≤ ch → ch ≤ 126 → 0 ≤ (table ch).rows ∧ 0 ≤ (table ch).width) :
    ∃ s, sizingPass (tableFreeType table) = .ok s ∧
      IsMaxOverRange (fun ch => (table ch).width) s.maxWidth ∧
      IsMaxOverRange (fun ch => Max.max 0 ((table ch).rows - (table ch).bitmap_top))
        s.maxDescent ∧
      IsMaxOverRange (fun ch => Max.max 0 (table ch).bitmap_top) s.maxAscent ∧
      (∀ ch, 32 ≤ ch → ch ≤ 126 →
        max 0 (max (table ch).bitmap_top (table ch).rows -
          max 0 ((table ch).rows - (table ch).bitmap_top)) = Max.max 0 (table ch).bitmap_top) ∧
      (allocFont s).char_width = s.maxWidth ∧
      (allocFont s).char_height = s.maxAscent + s.maxDescent ∧
      (∀ f, convertFont (tableFreeType table) font dpi fontSize = .ok f →
        f.char_width = s.maxWidth ∧ f.char_height = s.maxAscent + s.maxDescent) := by
  refine ⟨cellOf table, sizingPass_table table,
    cellOf_width_isMax table (fun ch h1 h2 => (h ch h1 h2).2), ?_, ?_, ?_, rfl, rfl, ?_⟩
  · exact isMaxOverRange_congr _ _ _ (fun ch _ _ => glyphDescent_eq (table ch))
      (cellOf_descent_isMax table)
  · exact isMaxOverRange_congr _ _ _
      (fun ch h1 h2 => glyphAscent_eq (table ch) (h ch h1 h2).1) (cellOf_ascent_isMax table)
  · intro ch h1 h2
    exact glyphAscent_eq (table ch) (h ch h1 h2).1
  · intro f hf
    rw [convertFont_table] at hf
    obtain ⟨_, _, _, h4, h5, _, _⟩ := packingPass_shape _ _ _ _ hf
    exact ⟨h4, h5⟩

/-- C4 at a concrete table: every code rendered as a one-pixel glyph. -/
theorem cell_sizing_witness :
    ∃ s, sizingPass (tableFreeType shiftedDots) = .ok s ∧
      IsMaxOverRange (fun ch => (shiftedDots ch).width) s.maxWidth ∧
      IsMaxOverRange (fun ch => Max.max 0 ((shiftedDots ch).rows - (shiftedDots ch).bitmap_top))
        s.maxDescent ∧
      IsMaxOverRange (fun ch => Max.max 0 (shiftedDots ch).bitmap_top) s.maxAscent ∧
      (∀ ch, 32 ≤ ch → ch ≤ 126 →
        max 0 (max (shiftedDots ch).bitmap_top (shiftedDots ch).rows -
          max 0 ((shiftedDots ch).rows - (shiftedDots ch).bitmap_top)) =
            Max.max 0 (shiftedDots ch).bitmap_top) ∧
      (allocFont s).char_width = s.maxWidth ∧
      (allocFont s).char_height = s.maxAscent + s.maxDescent ∧
      (∀ f, convertFont (tableFreeType shiftedDots) "font.ttf" 0 8 = .ok f →
        f.char_width = s.maxWidth ∧ f.char_height = s.maxAscent + s.maxDescent) :=
  cell_sizing shiftedDots "font.ttf" 0 8
    (fun _ _ _ => show (0 : Int) ≤ 1 ∧ (0 : Int) ≤ 1 from by decide)

/-- C5.  For a character `ch` in 32..126 and a source pixel `(i, j)`, the body of the pixel
loop tests bit `7 - j % 8` of source byte `i * pitch + j / 8`; when that bit is unset the
block is left as it was; when it is set and `(xpos, ypos) = (j + bitmap_left,
maxAscent + i - bitmap_top)` lies in `[0, maxWidth) x [0, maxHeight)`, the body succeeds,
the addressed byte is byte `ypos * bytesPerRow + xpos / 8` of the buffer of `ch`, and the
bits of the new block are the old bits together with bit `xpos % 8` (counted from the least
significant bit) of that byte. -/
theorem bit_placement (s : Sizing) (ch : Int) (g : Glyph) (i j : Int) (p : List Nat)
    (hj : 0 ≤ j) (hch1 : 32 ≤ ch) (hch2 : ch ≤ 126)
    (hbytes : ∀ b ∈ p, b < 256)
    (hp : p.length = (bytesPerChar s * (maxChar - minChar + 1)).toNat) :
    sourceBit g i j = (g.buffer (i * g.pitch + j / 8) % 256).testBit (7 - j % 8).toNat ∧
      (sourceBit g i j = false → packPixel s ch g i j p = .ok p) ∧
      (sourceBit g i j = true →
        0 ≤ j + g.bitmap_left → j + g.bitmap_left < s.maxWidth →
        0 ≤ s.maxAscent + i - g.bitmap_top → s.maxAscent + i - g.bitmap_top < maxHeight s →
        ∃ q, packPixel s ch g i j p = .ok q ∧ q.length = p.length ∧ (∀ b ∈ q, b < 256) ∧
          0 ≤ (s.maxAscent + i - g.bitmap_top) * bytesPerRow s + (j + g.bitmap_left) / 8 ∧
          (s.maxAscent + i - g.bitmap_top) * bytesPerRow s + (j + g.bitmap_left) / 8 <
            bytesPerChar s ∧
          ∀ n k, (q.getD n 0).testBit k =
            ((p.getD n 0).testBit k ||
              decide (n = ((ch - 32) * bytesPerChar s +
                  ((s.maxAscent + i - g.bitmap_top) * bytesPerRow s +
                    (j + g.bitmap_left) / 8)).toNat ∧
                k = ((j + g.bitmap_left) % 8).toNat))) := by
  refine ⟨?_, packPixel_unset s ch g i j p, ?_⟩
  · rw [sourceBit_eq_testBit, sourceByte, Int.tmod_eq_emod hj (by decide),
      Int.tdiv_eq_ediv hj (by decide)]
  · intro hbit hx0 hx1 hy0 hy1
    have hw : 0 ≤ s.maxWidth := by omega
    have hx8 : xpos g j < 8 * bytesPerRow s := by
      rw [bytesPerRow_spec s hw]; unfold xpos; omega
    obtain ⟨m0, m1⟩ := destIndex_mem s ch g i j hx0 hx8 hy0 hy1
    obtain ⟨d0, d1⟩ := destIndex_in_block s ch g i j hch1 hch2 hx0 hx8 hy0 hy1
    have hlen : destIndex s ch g i j < p.length := by rw [hp]; exact d1
    have hidx : destIndex s ch g i j = (ch - 32) * bytesPerChar s +
        ((s.maxAscent + i - g.bitmap_top) * bytesPerRow s + (j + g.bitmap_left) / 8) := by
      have e : Int.tdiv (xpos g j) 8 = (j + g.bitmap_left) / 8 :=
        Int.tdiv_eq_ediv hx0 (by decide)
      unfold destIndex
      rw [e]
      rfl
    have hk : ((j + g.bitmap_left) % 8).toNat < 8 := by omega
    have hm : (destIndex s ch g i j).toNat < p.length := by omega
    obtain ⟨b1, b2⟩ := packPixel_bits p _ _ hm hk hbytes
    refine ⟨_, packPixel_set s ch g i j p hbit hx0 d0 hlen, List.length_set .., b1, ?_, ?_, ?_⟩
    · rw [hidx] at m0; simp only [minChar] at m0; omega
    · rw [hidx] at m1; simp only [minChar] at m1
      have e : (ch - 32 + 1) * bytesPerChar s = (ch - 32) * bytesPerChar s + bytesPerChar s := by
        ring
      omega
    · rw [← hidx]; exact b2

/-- C5 at a concrete pixel: the set pixel of a one-pixel glyph of character 33 packed into
a zero-filled block for a cell of one pixel. -/
theorem bit_placement_witness :
    ∃ q, packPixel ⟨1, 1, 0⟩ 33 (dotGlyph 0 128 64) 0 0 (List.replicate 95 0) = .ok q ∧
      q.length = 95 ∧ (q.getD 1 0).testBit 0 = true :=
  have h := (bit_placement ⟨1, 1, 0⟩ 33 (dotGlyph 0 128 64) 0 0 (List.replicate 95 0)
    (by decide) (by decide) (by decide) (by decide) (by decide)).2.2
      (by decide) (by decide) (by decide) (by decide) (by decide)
  h.elim fun q hq => ⟨q, hq.1, hq.2.1, by
    have hb := hq.2.2.2.2.2 1 0
    rw [hb]; decide⟩

/-- C6, refuted at a concrete input.  With every code rendered as one set pixel at the pen
position, the pixel of the space character has `xpos = 0` and destination byte 0, and after
`convertFont` bit `7 - 0 % 8 = 7` of that byte is clear while bit `0 % 8 = 0` is set: the
leftmost pixel is the least significant bit. -/
theorem msb_first_fails :
    convertFont (tableFreeType plainDots) "font.ttf" 0 8 =
        .ok ⟨List.replicate 95 1, FONT_TYPE.FONT_TYPE_1BPP, 1, 1, 32, 126,
          List.replicate 95 1⟩ ∧
      sourceBit (plainDots 32) 0 0 = true ∧
      xpos (plainDots 32) 0 = 0 ∧
      destIndex (cellOf plainDots) 32 (plainDots 32) 0 0 = 0 ∧
      ((List.replicate 95 1).getD 0 0).testBit (7 - 0 % 8) = false ∧
      ((List.replicate 95 1).getD 0 0).testBit (0 % 8) = true := by
  decide

/-- C6 as amended.  Packed rows are least-significant-bit-first: for a character in 32..126
and a set source pixel whose destination `(xpos, ypos)` lies in the cell, the body of the
pixel loop ORs `2 ^ (xpos % 8)` into the destination byte `ypos * bytesPerRow + xpos / 8` of
the character, so that bit `xpos % 8` of it is set, its other bits are kept, and the
leftmost pixel of each group of eight (`xpos % 8 = 0`) is the least significant bit; each
row takes `bytesPerRow = ceil(maxWidth / 8)` bytes, and `xpos / 8` stays below it. -/
theorem lsb_first (s : Sizing) (ch : Int) (g : Glyph) (i j : Int) (p : List Nat)
    (hch1 : 32 ≤ ch) (hch2 : ch ≤ 126) (hbytes : ∀ b ∈ p, b < 256)
    (hp : p.length = (bytesPerChar s * (maxChar - minChar + 1)).toNat)
    (hbit : sourceBit g i j = true)
    (hx0 : 0 ≤ xpos g j) (hx1 : xpos g j < s.maxWidth)
    (hy0 : 0 ≤ ypos s g i) (hy1 : ypos s g i < maxHeight s) :
    ∃ q, packPixel s ch g i j p = .ok q ∧
      q.getD ((ch - 32) * bytesPerChar s +
          (ypos s g i * bytesPerRow s + xpos g j / 8)).toNat 0 =
        p.getD ((ch - 32) * bytesPerChar s +
          (ypos s g i * bytesPerRow s + xpos g j / 8)).toNat 0 ||| 2 ^ (xpos g j % 8).toNat ∧
      (q.getD ((ch - 32) * bytesPerChar s +
          (ypos s g i * bytesPerRow s + xpos g j / 8)).toNat 0).testBit
        (xpos g j % 8).toNat = true ∧
      (∀ k, k ≠ (xpos g j % 8).toNat →
        (q.getD ((ch - 32) * bytesPerChar s +
            (ypos s g i * bytesPerRow s + xpos g j / 8)).toNat 0).testBit k =
          (p.getD ((ch - 32) * bytesPerChar s +
            (ypos s g i * bytesPerRow s + xpos g j / 8)).toNat 0).testBit k) ∧
      (xpos g j % 8 = 0 →
        (q.getD ((ch - 32) * bytesPerChar s +
          (ypos s g i * bytesPerRow s + xpos g j / 8)).toNat 0) % 2 = 1) ∧
      bytesPerRow s = ⌈(s.maxWidth : ℚ) / 8⌉ ∧ xpos g j / 8 < bytesPerRow s := by
  have hw : 0 ≤ s.maxWidth := by omega
  have hx8 : xpos g j < 8 * bytesPerRow s := by
    rw [bytesPerRow_spec s hw]; omega
  obtain ⟨d0, d1⟩ := destIndex_in_block s ch g i j hch1 hch2 hx0 hx8 hy0 hy1
  have hlen : destIndex s ch g i j < p.length := by rw [hp]; exact d1
  have hidx : destIndex s ch g i j = (ch - 32) * bytesPerChar s +
      (ypos s g i * bytesPerRow s + xpos g j / 8) := by
    have e : Int.tdiv (xpos g j) 8 = xpos g j / 8 := Int.tdiv_eq_ediv hx0 (by decide)
    unfold destIndex
    rw [e]
    rfl
  have hk : (xpos g j % 8).toNat < 8 := by omega
  have hm : (destIndex s ch g i j).toNat < p.length := by omega
  obtain ⟨_, b2⟩ := packPixel_bits p _ _ hm hk hbytes
  have hb : p.getD (destIndex s ch g i j).toNat 0 < 256 := by
    rw [List.getD_eq_getElem p 0 hm]
    exact hbytes _ (List.getElem_mem hm)
  have hv : (p.getD (destIndex s ch g i j).toNat 0 ||| 2 ^ (xpos g j % 8).toNat) % 256 =
      p.getD (destIndex s ch g i j).toNat 0 ||| 2 ^ (xpos g j % 8).toNat :=
    Nat.mod_eq_of_lt (or_bit_lt _ _ hb hk)
  refine ⟨_, packPixel_set s ch g i j p hbit hx0 d0 hlen, ?_, ?_, ?_, ?_,
    bytesPerRow_ceil s hw, by omega⟩
  · rw [← hidx, getD_set p _ _ _ hm, if_pos rfl, hv]
  · rw [← hidx, b2]; simp
  · intro k hk2
    rw [← hidx, b2]; simp [hk2]
  · intro h0
    rw [← hidx, getD_set p _ _ _ hm, if_pos rfl, hv, h0]
    simp

/-- C6 as amended, at a concrete pixel: the set pixel of a one-pixel glyph of character 34
packed into a zero-filled block for a cell of one pixel. -/
theorem lsb_first_witness :
    ∃ q, packPixel ⟨1, 1, 0⟩ 34 (dotGlyph 0 128 64) 0 0 (List.replicate 95 0) = .ok q ∧
      (q.getD 2 0).testBit 0 = true :=
  (lsb_first ⟨1, 1, 0⟩ 34 (dotGlyph 0 128 64) 0 0 (List.replicate 95 0)
    (by decide) (by decide) (by decide) (by decide) (by decide) (by decide) (by decide)
    (by decide) (by decide)).elim fun q hq => ⟨q, hq.1, hq.2.2.1⟩

/-- C7, refuted at a concrete input.  With every glyph advancing by 256 pixels
(`advance.x = 16384`), `convertFont` returns a font whose width entry for character 65 is
0, not `floor(16384 / 64) = 256`: the entry is a single byte. -/
theorem advance_width_fails :
    convertFont (tableFreeType wideAdvance) "font.ttf" 0 300 =
        .ok ⟨[], FONT_TYPE.FONT_TYPE_1BPP, 0, 0, 32, 126, List.replicate 95 0⟩ ∧
      (wideAdvance 65).advance_x / 64 = 256 ∧
      (((List.replicate 95 0).getD (65 - 32) 0 : Nat) : Int) ≠ (wideAdvance 65).advance_x / 64 := by
  decide

/-- C7 as amended.  In every font that `convertFont` returns, the width entry of a
character `ch` in 32..126 is `floor(advance.x / 64)` reduced modulo 256, where `advance.x` is
the advance of the glyph loaded for `ch` in the packing pass; it equals
`floor(advance.x / 64)` whenever `0 <= advance.x < 16384`. -/
theorem advance_width (ft : FreeType) (font : String) (dpi : Int) (fontSize : Rat)
    (f : UG_FONT) (h : convertFont ft font dpi fontSize = .ok f)
    (ch : Int) (h1 : 32 ≤ ch) (h2 : ch ≤ 126) :
    ∃ g, ft.loadChar Pass.packing ch = some g ∧
      ((f.widths.getD (ch - 32).toNat 0 : Nat) : Int) = (g.advance_x / 64) % 256 ∧
      (0 ≤ g.advance_x → g.advance_x < 16384 →
        ((f.widths.getD (ch - 32).toNat 0 : Nat) : Int) = g.advance_x / 64) := by
  obtain ⟨s, _, hpack⟩ := convertFont_ok ft font dpi fontSize f h
  unfold packingPass at hpack
  have hmem : ch ∈ interval minChar (maxChar + 1) := by
    rw [mem_interval]; simp only [minChar, maxChar]; omega
  have hlen : (ch - minChar).toNat < (allocFont s).widths.length := by
    simp only [allocFont, List.length_replicate, minChar, maxChar]; omega
  obtain ⟨g, hg, hval⟩ := packing_widths ft s _
    (fun x hx => by rw [mem_interval] at hx; exact hx.1) _ _ hpack ch hmem hlen
  have hv : ((f.widths.getD (ch - 32).toNat 0 : Nat) : Int) = (g.advance_x / 64) % 256 := by
    rw [← widthByte_eq]; exact congrArg Int.ofNat hval
  refine ⟨g, hg, hv, ?_⟩
  intro a0 a1
  rw [hv]
  omega

/-- C7 as amended, at a concrete font: every glyph a set pixel advancing by one pixel. -/
theorem advance_width_witness :
    ∃ g, (tableFreeType plainDots).loadChar Pass.packing 65 = some g ∧
      (((List.replicate 95 1).getD ((65 : Int) - 32).toNat 0 : Nat) : Int) = (g.advance_x / 64) % 256 ∧
      (0 ≤ g.advance_x → g.advance_x < 16384 →
        (((List.replicate 95 1).getD ((65 : Int) - 32).toNat 0 : Nat) : Int) = g.advance_x / 64) :=
  advance_width (tableFreeType plainDots) "font.ttf" 0 8
    ⟨List.replicate 95 1, FONT_TYPE.FONT_TYPE_1BPP, 1, 1, 32, 126, List.replicate 95 1⟩
    (by decide) 65 (by decide) (by decide)

/-- Load failures.  If `FT_Load_Char` fails for a code in 32..126, in either pass,
`convertFont` returns no font, and the run opens no file and shows nothing (its only
possible event is the usage message of an argument error); it ends with `exit(1)` or in the
undefined behaviour of a store outside the bitmap block made by the packing pass before it
reached the failing load, and with `exit(1)` for certain when the load fails in the sizing
pass, or when both passes load the same glyphs.  Conversely a font is returned only if every
code in 32..126 loads in both passes. -/
theorem missing_glyph_aborts (o : Options) (ft : FreeType) (canOpen : String → Bool) :
    ((∃ pass ch, 32 ≤ ch ∧ ch ≤ 126 ∧ ft.loadChar pass ch = none) →
        (∀ font dpi fontSize f, convertFont ft font dpi fontSize ≠ .ok f) ∧
        (∀ e ∈ (main o ft canOpen).1, e = Event.usage) ∧
        ((main o ft canOpen).2 = Halt.exit 1 ∨ (main o ft canOpen).2 = Halt.undefined)) ∧
      ((∃ ch, 32 ≤ ch ∧ ch ≤ 126 ∧ ft.loadChar Pass.sizing ch = none) →
        (main o ft canOpen).2 = Halt.exit 1) ∧
      ((∀ ch, ft.loadChar Pass.packing ch = ft.loadChar Pass.sizing ch) →
        (∃ pass ch, 32 ≤ ch ∧ ch ≤ 126 ∧ ft.loadChar pass ch = none) →
        (main o ft canOpen).2 = Halt.exit 1) ∧
      (∀ font dpi fontSize f, convertFont ft font dpi fontSize = .ok f →
        ∀ pass ch, 32 ≤ ch → ch ≤ 126 → (ft.loadChar pass ch).isSome = true) := by
  have sizingCase : (∃ ch, 32 ≤ ch ∧ ch ≤ 126 ∧ ft.loadChar Pass.sizing ch = none) →
      (main o ft canOpen).2 = Halt.exit 1 := by
    rintro ⟨ch, h1, h2, h⟩
    exact (main_no_font o ft canOpen
      (fun font dpi fontSize f => convertFont_missing ft _ ch h1 h2 h font dpi fontSize f)).2.2
      (fun font dpi fontSize => convertFont_missing_sizing ft ch h1 h2 h font dpi fontSize)
  refine ⟨?_, sizingCase, ?_, ?_⟩
  · rintro ⟨pass, ch, h1, h2, h⟩
    have hno : ∀ font dpi fontSize f, convertFont ft font dpi fontSize ≠ .ok f :=
      fun font dpi fontSize f => convertFont_missing ft pass ch h1 h2 h font dpi fontSize f
    obtain ⟨a, b, _⟩ := main_no_font o ft canOpen hno
    exact ⟨hno, a, b⟩
  · rintro hsame ⟨pass, ch, h1, h2, h⟩
    refine sizingCase ⟨ch, h1, h2, ?_⟩
    cases pass with
    | sizing => exact h
    | packing => rw [← hsame]; exact h
  · intro font dpi fontSize f hf pass ch h1 h2
    cases hl : ft.loadChar pass ch with
    | none => exact absurd hf (convertFont_missing ft pass ch h1 h2 hl font dpi fontSize f)
    | some g => rfl

/-- Load failures at a concrete run: asked to dump a font whose character 65 fails to load
in the packing pass, the run ends with `exit(1)` having opened no file. -/
theorem missing_glyph_aborts_witness :
    (∃ pass ch, 32 ≤ ch ∧ ch ≤ 126 ∧ missingInPacking.loadChar pass ch = none) ∧
      main dumpOptions missingInPacking (fun _ => true) = ([], Halt.exit 1) ∧
      (∀ e ∈ (main dumpOptions missingInPacking (fun _ => true)).1, e = Event.usage) :=
  have hmiss : ∃ pass ch, 32 ≤ ch ∧ ch ≤ 126 ∧ missingInPacking.loadChar pass ch = none :=
    ⟨Pass.packing, 65, by decide, by decide, rfl⟩
  ⟨hmiss, by decide,
    ((missing_glyph_aborts dumpOptions missingInPacking (fun _ => true)).1 hmiss).2.1⟩

/-- C8, evaluated at a failing input.  With `lateFailure` every code loads in the sizing
pass, which returns a cell of one pixel, so that the bitmap block has 95 bytes; in the
packing pass the load of code 126 fails, but code 125 is packed before it, and the store
for its set pixel, drawn at `xpos = 16`, goes to byte `(125 - 32) * 1 + 16 / 8 = 95`,
outside the block (the codes 32..124 having been packed without fault).  `convertFont`
thus leaves defined behaviour before it reaches the failing load, and the run asked to dump
the font does not end with `exit(1)`. -/
theorem missing_glyph_undefined :
    (lateFailure.loadChar Pass.packing 126).isNone = true ∧
      (∀ ch ∈ interval 32 127, (lateFailure.loadChar Pass.sizing ch).isSome = true) ∧
      sizingPass lateFailure = .ok ⟨1, 1, 0⟩ ∧
      (allocFont ⟨1, 1, 0⟩).p.length = 95 ∧
      sourceBit (dotGlyph 16 128 64) 0 0 = true ∧
      destIndex ⟨1, 1, 0⟩ 125 (dotGlyph 16 128 64) 0 0 = 95 ∧
      forLoop (packChar lateFailure ⟨1, 1, 0⟩) (interval 32 125) (allocFont ⟨1, 1, 0⟩) =
        .ok ⟨List.replicate 93 1 ++ [0, 0], FONT_TYPE.FONT_TYPE_1BPP, 1, 1, 32, 126,
          List.replicate 93 1 ++ [0, 0]⟩ ∧
      packChar lateFailure ⟨1, 1, 0⟩ 125
          ⟨List.replicate 93 1 ++ [0, 0], FONT_TYPE.FONT_TYPE_1BPP, 1, 1, 32, 126,
            List.replicate 93 1 ++ [0, 0]⟩ = .error Halt.undefined ∧
      convertFont lateFailure "font.ttf" 0 8 = .error Halt.undefined ∧
      main dumpOptions lateFailure (fun _ => true) = ([], Halt.undefined) ∧
      (main dumpOptions lateFailure (fun _ => true)).2 ≠ Halt.exit 1 := by
  decide

/-- C9.  For every glyph table over 32..126 whose largest glyph width is 6, largest
per-glyph ascent is 6 and largest per-glyph descent is 2, the sizing pass returns the cell
(6, 6, 2), so that `bytesPerRow = 1`; the font assembled for it, like every font that
`convertFont` returns, has `char_width = 6`, `char_height = 8`, `start_char = 32`,
`end_char = 126`, a bitmap block of 760 bytes made of 95 buffers of 8 bytes, and 95 width
entries; and `convertFont` does return a font whenever every glyph column lands in the
eight columns of the padded row. -/
theorem worked_example (table : Int → Glyph) (font : String) (dpi : Int) (fontSize : Rat)
    (hw : IsMaxOverRange (fun ch => (table ch).width) 6)
    (ha : IsMaxOverRange (fun ch => glyphAscent (table ch)) 6)
    (hd : IsMaxOverRange (fun ch => glyphDescent (table ch)) 2) :
    sizingPass (tableFreeType table) = .ok ⟨6, 6, 2⟩ ∧
      bytesPerRow ⟨6, 6, 2⟩ = 1 ∧
      allocFont ⟨6, 6, 2⟩ =
        ⟨List.replicate 760 0, FONT_TYPE.FONT_TYPE_1BPP, 6, 8, 32, 126, List.replicate 95 0⟩ ∧
      (∀ f, convertFont (tableFreeType table) font dpi fontSize = .ok f →
        f.char_width = 6 ∧ f.char_height = 8 ∧ f.start_char = 32 ∧ f.end_char = 126 ∧
        f.p.length = 760 ∧ f.widths.length = 95 ∧
        ∀ ch, 32 ≤ ch → ch ≤ 126 → (charBuffer ⟨6, 6, 2⟩ f ch).length = 8) ∧
      ((∀ ch, 32 ≤ ch → ch ≤ 126 → ∀ j, 0 ≤ j → j < (table ch).width →
          0 ≤ j + (table ch).bitmap_left ∧ j + (table ch).bitmap_left < 8) →
        ∃ f, convertFont (tableFreeType table) font dpi fontSize = .ok f) := by
  have hcell : cellOf table = ⟨6, 6, 2⟩ :=
    cellOf_eq table 6 6 2 (by decide) (by decide) (by decide) hw ha hd
  refine ⟨hcell ▸ sizingPass_table table, by decide, by decide, ?_, ?_⟩
  · intro f hf
    rw [convertFont_table, hcell] at hf
    obtain ⟨h1, h2, _, h4, h5, h6, h7⟩ := packingPass_shape _ _ _ _ hf
    have hlen : f.p.length =
        (bytesPerChar ⟨6, 6, 2⟩ * (maxChar - minChar + 1)).toNat := by
      rw [h1]; exact length_allocFont _
    refine ⟨h4, h5, h6, h7, h1, h2, ?_⟩
    intro ch c1 c2
    exact length_charBuffer ⟨6, 6, 2⟩ f ch c1 c2 (by decide) hlen
  · intro hfit
    refine convertFont_returns table font dpi fontSize ?_
    intro ch c1 c2 j j0 j1
    rw [hcell]
    exact hfit ch c1 c2 j j0 j1

/-- C9 at a concrete face: one glyph of 6 by 8 pixels, 6 rows above the baseline. -/
theorem worked_example_witness :
    sizingPass (tableFreeType exampleFace) = .ok ⟨6, 6, 2⟩ ∧
      ∃ f, convertFont (tableFreeType exampleFace) "font.ttf" 0 8 = .ok f ∧
        f.char_width = 6 ∧ f.char_height = 8 ∧ f.p.length = 760 ∧ f.widths.length = 95 :=
  have hcase : ∀ ch, exampleFace ch = blankGlyph 8 6 0 6 ∨ exampleFace ch = blankGlyph 0 0 0 0 :=
    fun ch => by unfold exampleFace; split <;> simp
  have h := worked_example exampleFace "font.ttf" 0 8
    ⟨fun ch _ _ => by
      show (exampleFace ch).width ≤ 6
      rcases hcase ch with e | e <;> rw [e] <;> decide, 103, by decide, by decide, rfl⟩
    ⟨fun ch _ _ => by
      show glyphAscent (exampleFace ch) ≤ 6
      rcases hcase ch with e | e <;> rw [e] <;> decide, 103, by decide, by decide, rfl⟩
    ⟨fun ch _ _ => by
      show glyphDescent (exampleFace ch) ≤ 2
      rcases hcase ch with e | e <;> rw [e] <;> decide, 103, by decide, by decide, rfl⟩
  have hfit : ∀ ch, 32 ≤ ch → ch ≤ 126 → ∀ j, 0 ≤ j → j < (exampleFace ch).width →
      0 ≤ j + (exampleFace ch).bitmap_left ∧ j + (exampleFace ch).bitmap_left < 8 := by
    intro ch _ _ j j0 j1
    rcases hcase ch with e | e <;> rw [e] at j1 ⊢ <;> simp only [blankGlyph] at j1 ⊢ <;> omega
  ⟨h.1, (h.2.2.2.2 hfit).elim fun f hf =>
    ⟨f, hf, (h.2.2.2.1 f hf).1, (h.2.2.2.1 f hf).2.1, (h.2.2.2.1 f hf).2.2.2.2.1,
      (h.2.2.2.1 f hf).2.2.2.2.2.1⟩⟩

/-- C10, evaluated at a failing input.  In the cell computed for `shiftedDots` (one pixel
wide) the set source pixel of the space character has `xpos = 1`, outside `[0, 1)`, yet
packing the glyph into the zero-filled block changes byte 0 to 2, whereas the same glyph
with the pixel unset leaves the block as it was. -/
theorem out_of_cell_dropped_fails :
    cellOf shiftedDots = ⟨1, 1, 0⟩ ∧
      sourceBit (shiftedDots 32) 0 0 = true ∧
      xpos (shiftedDots 32) 0 = 1 ∧
      ¬ (xpos (shiftedDots 32) 0 < (cellOf shiftedDots).maxWidth) ∧
      packGlyph (cellOf shiftedDots) 32 (shiftedDots 32) (List.replicate 95 0) =
        .ok (2 :: List.replicate 94 0) ∧
      packGlyph (cellOf shiftedDots) 32 (dotGlyph 1 0 128) (List.replicate 95 0) =
        .ok (List.replicate 95 0) ∧
      (2 :: List.replicate 94 0) ≠ List.replicate 95 0 := by
  decide

/-- The store of the packer.  No cell test guards it: a set source pixel whose column
`xpos` is not negative and whose byte index lies inside the bitmap block is written whether
or not its destination lies in the cell, by OR-ing `2 ^ (xpos % 8)` into byte
`(ch - 32) * bytesPerChar + ypos * bytesPerRow + xpos / 8`; the block is left unchanged
exactly when that bit was already set, and always when the source pixel is unset. -/
theorem out_of_cell_written (s : Sizing) (ch : Int) (g : Glyph) (i j : Int) (p : List Nat)
    (hbytes : ∀ b ∈ p, b < 256)
    (hx : 0 ≤ xpos g j)
    (h0 : 0 ≤ (ch - 32) * bytesPerChar s + (ypos s g i * bytesPerRow s + xpos g j / 8))
    (h1 : (ch - 32) * bytesPerChar s + (ypos s g i * bytesPerRow s + xpos g j / 8) <
      p.length) :
    (sourceBit g i j = false → packPixel s ch g i j p = .ok p) ∧
      (sourceBit g i j = true →
        packPixel s ch g i j p =
          .ok (p.set ((ch - 32) * bytesPerChar s +
              (ypos s g i * bytesPerRow s + xpos g j / 8)).toNat
            (p.getD ((ch - 32) * bytesPerChar s +
              (ypos s g i * bytesPerRow s + xpos g j / 8)).toNat 0 |||
                2 ^ (xpos g j % 8).toNat)) ∧
        (packPixel s ch g i j p = .ok p ↔
          (p.getD ((ch - 32) * bytesPerChar s +
            (ypos s g i * bytesPerRow s + xpos g j / 8)).toNat 0).testBit
              (xpos g j % 8).toNat = true)) := by
  refine ⟨packPixel_unset s ch g i j p, ?_⟩
  intro hbit
  have hidx : destIndex s ch g i j = (ch - 32) * bytesPerChar s +
      (ypos s g i * bytesPerRow s + xpos g j / 8) := by
    have e : Int.tdiv (xpos g j) 8 = xpos g j / 8 := Int.tdiv_eq_ediv hx (by decide)
    unfold destIndex
    rw [e]
    rfl
  rw [← hidx] at h0 h1 ⊢
  have hk : (xpos g j % 8).toNat < 8 := by omega
  have hm : (destIndex s ch g i j).toNat < p.length := by omega
  have hb : p.getD (destIndex s ch g i j).toNat 0 < 256 := by
    rw [List.getD_eq_getElem p 0 hm]
    exact hbytes _ (List.getElem_mem hm)
  have hv : (p.getD (destIndex s ch g i j).toNat 0 ||| 2 ^ (xpos g j % 8).toNat) % 256 =
      p.getD (destIndex s ch g i j).toNat 0 ||| 2 ^ (xpos g j % 8).toNat :=
    Nat.mod_eq_of_lt (or_bit_lt _ _ hb hk)
  have hset := packPixel_set s ch g i j p hbit hx h0 h1
  rw [hv] at hset
  refine ⟨hset, ?_⟩
  rw [hset]
  constructor
  · intro heq
    simp only [Except.ok.injEq] at heq
    have h2 : (p.set (destIndex s ch g i j).toNat
        (p.getD (destIndex s ch g i j).toNat 0 ||| 2 ^ (xpos g j % 8).toNat)).getD
          (destIndex s ch g i j).toNat 0 = p.getD (destIndex s ch g i j).toNat 0 := by
      rw [heq]
    rw [getD_set p _ _ _ hm, if_pos rfl] at h2
    rw [← h2, Nat.testBit_or, Nat.testBit_two_pow_self, Bool.or_true]
  · intro hbitset
    have hor : p.getD (destIndex s ch g i j).toNat 0 ||| 2 ^ (xpos g j % 8).toNat =
        p.getD (destIndex s ch g i j).toNat 0 := by
      apply Nat.eq_of_testBit_eq
      intro n
      rw [Nat.testBit_or, Nat.testBit_two_pow]
      by_cases hn : (xpos g j % 8).toNat = n
      · subst hn; rw [hbitset]; rfl
      · simp [hn]
    rw [hor, set_getD_self p _ hm]

/-- The store of the packer at a concrete pixel outside the cell: the set pixel of the
space character of `shiftedDots`, whose `xpos = 1` is not below the cell width 1. -/
theorem out_of_cell_written_witness :
    ¬ (xpos (shiftedDots 32) 0 < 1) ∧
      packPixel ⟨1, 1, 0⟩ 32 (shiftedDots 32) 0 0 (List.replicate 95 0) =
        .ok ((List.replicate 95 0).set 0 2) :=
  ⟨by decide,
    ((out_of_cell_written ⟨1, 1, 0⟩ 32 (shiftedDots 32) 0 0 (List.replicate 95 0)
      (by decide) (by decide) (by decide) (by decide)).2 (by decide)).1⟩

/-- C11, evaluated at a failing input.  In `strayDot` the cell is one pixel (one byte per
character); packing the space character (code 32) into the zero-filled block sets byte 1,
which lies outside its range `[0, 1)` and is the buffer of character 33, whose own glyph has
no set pixel; the final buffer of character 33 is therefore 1 instead of 0. -/
theorem glyph_isolation_fails :
    cellOf strayDot = ⟨1, 1, 0⟩ ∧ bytesPerChar (cellOf strayDot) = 1 ∧
      packGlyph (cellOf strayDot) 32 (strayDot 32) (List.replicate 95 0) =
        .ok (0 :: 1 :: List.replicate 93 0) ∧
      sourceBit (strayDot 33) 0 0 = false ∧
      convertFont (tableFreeType strayDot) "font.ttf" 0 8 =
        .ok ⟨0 :: 1 :: List.replicate 93 0, FONT_TYPE.FONT_TYPE_1BPP, 1, 1, 32, 126,
          List.replicate 95 1⟩ ∧
      charBuffer (cellOf strayDot)
        ⟨0 :: 1 :: List.replicate 93 0, FONT_TYPE.FONT_TYPE_1BPP, 1, 1, 32, 126,
          List.replicate 95 1⟩ 33 = [1] := by
  decide

/-- C12, refuted at a concrete input.  For a face all of whose glyphs have an empty
bitmap `convertFont` returns a font with `char_width = 0` and `char_height = 0`. -/
theorem font_validity_fails :
    convertFont (tableFreeType emptyFace) "font.ttf" 0 8 =
        .ok ⟨[], FONT_TYPE.FONT_TYPE_1BPP, 0, 0, 32, 126, List.replicate 95 0⟩ ∧
      ¬ ((0 : Int) < (⟨[], FONT_TYPE.FONT_TYPE_1BPP, 0, 0, 32, 126,
        List.replicate 95 0⟩ : UG_FONT).char_width) ∧
      ¬ ((0 : Int) < (⟨[], FONT_TYPE.FONT_TYPE_1BPP, 0, 0, 32, 126,
        List.replicate 95 0⟩ : UG_FONT).char_height) := by
  decide

/-- C12 as amended.  Every font that `convertFont` returns for a glyph table satisfies
`end_char >= start_char`, `char_width >= 0` and `char_height >= 0`; its `char_width` is
positive exactly when some glyph in 32..126 has a positive width, and its `char_height`
exactly when some glyph has a positive per-glyph ascent or descent. -/
theorem font_validity (table : Int → Glyph) (font : String) (dpi : Int) (fontSize : Rat)
    (f : UG_FONT) (h : convertFont (tableFreeType table) font dpi fontSize = .ok f) :
    f.start_char ≤ f.end_char ∧ 0 ≤ f.char_width ∧ 0 ≤ f.char_height ∧
      (0 < f.char_width ↔ ∃ ch, 32 ≤ ch ∧ ch ≤ 126 ∧ 0 < (table ch).width) ∧
      (0 < f.char_height ↔
        ∃ ch, 32 ≤ ch ∧ ch ≤ 126 ∧
          (0 < glyphAscent (table ch) ∨ 0 < glyphDescent (table ch))) := by
  rw [convertFont_table] at h
  obtain ⟨_, _, _, h4, h5, h6, h7⟩ := packingPass_shape _ _ _ _ h
  have hw : f.char_width = (cellOf table).maxWidth := h4
  have hh : f.char_height = (cellOf table).maxAscent + (cellOf table).maxDescent := h5
  have hs : f.start_char = 32 := h6
  have he : f.end_char = 126 := h7
  obtain ⟨n1, n2, n3⟩ := cellOf_nonneg table
  obtain ⟨a1, a2, a3⟩ := sizeOver_attained table (interval minChar (maxChar + 1)) ⟨0, 0, 0⟩
  have a1c : (cellOf table).maxWidth = 0 ∨
      ∃ ch ∈ interval minChar (maxChar + 1), (table ch).width = (cellOf table).maxWidth := a1
  have a2c : (cellOf table).maxAscent = 0 ∨ ∃ ch ∈ interval minChar (maxChar + 1),
      glyphAscent (table ch) = (cellOf table).maxAscent := a2
  have a3c : (cellOf table).maxDescent = 0 ∨ ∃ ch ∈ interval minChar (maxChar + 1),
      glyphDescent (table ch) = (cellOf table).maxDescent := a3
  have inRange : ∀ ch, ch ∈ interval minChar (maxChar + 1) → 32 ≤ ch ∧ ch ≤ 126 := by
    intro ch hch
    rw [mem_interval] at hch
    simp only [minChar, maxChar] at hch
    omega
  refine ⟨by omega, by omega, by omega, ?_, ?_⟩
  · rw [hw]
    constructor
    · intro hpos
      rcases a1c with h0 | ⟨ch, hch, e⟩
      · omega
      · exact ⟨ch, (inRange ch hch).1, (inRange ch hch).2, by omega⟩
    · rintro ⟨ch, c1, c2, hpos⟩
      have := (cellOf_bound table ch c1 c2).1
      omega
  · rw [hh]
    constructor
    · intro hpos
      by_cases hA : 0 < (cellOf table).maxAscent
      · rcases a2c with h0 | ⟨ch, hch, e⟩
        · omega
        · exact ⟨ch, (inRange ch hch).1, (inRange ch hch).2, Or.inl (by omega)⟩
      · rcases a3c with h0 | ⟨ch, hch, e⟩
        · omega
        · exact ⟨ch, (inRange ch hch).1, (inRange ch hch).2, Or.inr (by omega)⟩
    · rintro ⟨ch, c1, c2, hpos⟩
      obtain ⟨_, b2, b3⟩ := cellOf_bound table ch c1 c2
      omega

/-- C12 as amended, at a concrete font: every glyph a set pixel at the pen position. -/
theorem font_validity_witness :
    (32 : Int) ≤ 126 ∧ (0 : Int) ≤ 1 ∧
      ((0 : Int) < 1 ↔ ∃ ch, 32 ≤ ch ∧ ch ≤ 126 ∧ 0 < (plainDots ch).width) :=
  have h := font_validity plainDots "font.ttf" 0 8
    ⟨List.replicate 95 1, FONT_TYPE.FONT_TYPE_1BPP, 1, 1, 32, 126, List.replicate 95 1⟩
    (by decide)
  ⟨h.1, h.2.1, h.2.2.2.1⟩

/-- C16, refuted at a concrete input.  When every glyph has an empty bitmap with
`bitmap_top = 1`, the triple `(w', a', d') = (0, 0, 0)` contains every glyph bitmap (there is
no row to place, and no width exceeds 0), yet the sizing pass yields `maxAscent = 1`, so
`a' >= maxAscent` fails and the cell of height 1 is not the smallest. -/
theorem cell_minimality_fails :
    cellOf hoveringBlanks = ⟨0, 1, 0⟩ ∧
      (∀ ch, 32 ≤ ch → ch ≤ 126 → ∀ i, 0 ≤ i → i < (hoveringBlanks ch).rows →
        0 ≤ 0 + i - (hoveringBlanks ch).bitmap_top ∧
          0 + i - (hoveringBlanks ch).bitmap_top < 0 + 0) ∧
      (∀ ch, 32 ≤ ch → ch ≤ 126 → (hoveringBlanks ch).width ≤ 0) ∧
      ¬ ((cellOf hoveringBlanks).maxAscent ≤ 0) :=
  ⟨by decide,
    fun _ _ _ i h0 h1 => absurd (show i < 0 from h1) (by omega),
    fun _ _ _ => show (0 : Int) ≤ 0 from by decide,
    by decide⟩

/-- C16 as amended.  For every glyph table over 32..126 with `rows >= 0` and `width >= 0`
in which every empty bitmap (`rows = 0`) has `bitmap_top = 0`, the cell computed by the
sizing pass is the smallest baseline-aligned rectangle containing every glyph bitmap: any
`(w', a', d')` with `a', d' >= 0` that places every row of every glyph in `[0, a' + d')` and
is at least as wide as every glyph satisfies `w' >= char_width`, `a' >= maxAscent`,
`d' >= maxDescent` and `a' + d' >= char_height`. -/
theorem cell_minimality (table : Int → Glyph) (w a d : Int)
    (hwf : ∀ ch, 32 ≤ ch → ch ≤ 126 → 0 ≤ (table ch).rows ∧ 0 ≤ (table ch).width)
    (hempty : ∀ ch, 32 ≤ ch → ch ≤ 126 → (table ch).rows = 0 → (table ch).bitmap_top = 0)
    (ha : 0 ≤ a) (hd : 0 ≤ d)
    (hrows : ∀ ch, 32 ≤ ch → ch ≤ 126 → ∀ i, 0 ≤ i → i < (table ch).rows →
      0 ≤ a + i - (table ch).bitmap_top ∧ a + i - (table ch).bitmap_top < a + d)
    (hwidth : ∀ ch, 32 ≤ ch → ch ≤ 126 → (table ch).width ≤ w) :
    ∃ s, sizingPass (tableFreeType table) = .ok s ∧
      (allocFont s).char_width ≤ w ∧ s.maxAscent ≤ a ∧ s.maxDescent ≤ d ∧
      (allocFont s).char_height ≤ a + d := by
  have hW : (cellOf table).maxWidth ≤ w := by
    obtain ⟨_, ch, c1, c2, e⟩ := cellOf_width_isMax table (fun ch h1 h2 => (hwf ch h1 h2).2)
    have := hwidth ch c1 c2
    simp only at e
    omega
  have hA : (cellOf table).maxAscent ≤ a := by
    obtain ⟨_, ch, c1, c2, e⟩ := cellOf_ascent_isMax table
    simp only at e
    rw [← e, glyphAscent_eq _ (hwf ch c1 c2).1]
    by_cases hr : (table ch).rows = 0
    · rw [hempty ch c1 c2 hr]; omega
    · have := (hrows ch c1 c2 0 (by omega) (by have := (hwf ch c1 c2).1; omega)).1
      omega
  have hD : (cellOf table).maxDescent ≤ d := by
    obtain ⟨_, ch, c1, c2, e⟩ := cellOf_descent_isMax table
    simp only at e
    rw [← e, glyphDescent_eq]
    by_cases hr : (table ch).rows = 0
    · rw [hr, hempty ch c1 c2 hr]; omega
    · have h0 := (hwf ch c1 c2).1
      have := (hrows ch c1 c2 ((table ch).rows - 1) (by omega) (by omega)).2
      omega
  refine ⟨cellOf table, sizingPass_table table, hW, hA, hD, ?_⟩
  show (cellOf table).maxAscent + (cellOf table).maxDescent ≤ a + d
  omega

/-- C16 as amended, at a concrete face: every glyph one pixel on the row above the
baseline, contained in a rectangle 3 wide reaching 2 rows above and 1 row below it. -/
theorem cell_minimality_witness :
    ∃ s, sizingPass (tableFreeType plainDots) = .ok s ∧
      (allocFont s).char_width ≤ 3 ∧ s.maxAscent ≤ 2 ∧ s.maxDescent ≤ 1 ∧
      (allocFont s).char_height ≤ 2 + 1 :=
  cell_minimality plainDots 3 2 1
    (fun _ _ _ => show (0 : Int) ≤ 1 ∧ (0 : Int) ≤ 1 from by decide)
    (fun _ _ _ (h : (1 : Int) = 0) => absurd h (by decide))
    (by decide) (by decide)
    (fun _ _ _ i h0 (h1 : i < 1) =>
      show 0 ≤ 2 + i - 1 ∧ 2 + i - 1 < 2 + 1 from by omega)
    (fun _ _ _ => show (1 : Int) ≤ 3 from by decide)

/-- C17.  For every glyph table over 32..126, whatever the values of `bitmap_top` (the
assumption `rows >= 0` is not even needed), the sizing pass returns `maxAscent` and `maxDescent` such that every source row
`i` in `[0, rows)` of every glyph in the range satisfies
`0 <= maxAscent + i - bitmap_top < maxAscent + maxDescent`, the latter being the
`char_height` of the font. -/
theorem vertical_containment (table : Int → Glyph) :
    ∃ s, sizingPass (tableFreeType table) = .ok s ∧
      (allocFont s).char_height = s.maxAscent + s.maxDescent ∧
      ∀ ch, 32 ≤ ch → ch ≤ 126 → ∀ i, 0 ≤ i → i < (table ch).rows →
        0 ≤ s.maxAscent + i - (table ch).bitmap_top ∧
          s.maxAscent + i - (table ch).bitmap_top < s.maxAscent + s.maxDescent :=
  ⟨cellOf table, sizingPass_table table, rfl,
    fun ch c1 c2 i i0 i1 => ypos_in_cell table ch c1 c2 i i0 i1⟩

/-- C17 at a concrete face: one glyph of 8 rows, 6 of them above the baseline. -/
theorem vertical_containment_witness :
    ∃ s, sizingPass (tableFreeType exampleFace) = .ok s ∧
      (allocFont s).char_height = s.maxAscent + s.maxDescent ∧
      ∀ ch, 32 ≤ ch → ch ≤ 126 → ∀ i, 0 ≤ i → i < (exampleFace ch).rows →
        0 ≤ s.maxAscent + i - (exampleFace ch).bitmap_top ∧
          s.maxAscent + i - (exampleFace ch).bitmap_top < s.maxAscent + s.maxDescent :=
  vertical_containment exampleFace

/-- C13.  For a font with `char_width >= 0` and `char_height >= 0` whose bitmap block holds
`(end_char - start_char + 1) * bytesPerChar` bytes, the row length `bytesPerChar` computed by
`dumpFont` is `ceil(char_width / 8) * char_height`, the value `convertFont` used for the cell
of the font; the loop over `ch` succeeds and prints, for `k = 0 .. end_char - start_char`,
the row made of the literals `0xHH` (two upper-case hexadecimal digits) of
`p[k * bytesPerChar] .. p[(k + 1) * bytesPerChar - 1]` in order; `current` ends at the size
of the block and the indices read are `0, 1, ..` up to it, each once; the text of the
`.c` file declares `fontBits` with `end_char - start_char + 1` rows of `bytesPerChar` bytes
right before those rows; and `dumpFont` itself, when the width table has one byte per
character, the size converts to `int`, the names fit their 80-byte buffers and the `.c`
file can be opened, opens that file, prints to it a text holding that declaration followed
by those rows, and closes it. -/
theorem emitted_bitmap_table (font : UG_FONT)
    (hw : 0 ≤ font.char_width) (hh : 0 ≤ font.char_height)
    (hrange : font.start_char ≤ font.end_char + 1)
    (hbytes : ∀ b ∈ font.p, b < 256)
    (hlen : (font.p.length : Int) =
      (font.end_char - font.start_char + 1) * dumpBytesPerChar font) :
    dumpBytesPerChar font = ⌈(font.char_width : ℚ) / 8⌉ * font.char_height ∧
    (∀ s : Sizing, font.char_width = s.maxWidth → font.char_height = maxHeight s →
      dumpBytesPerChar font = bytesPerChar s) ∧
    dumpBits font =
      .ok ⟨specBitsRows font (font.end_char - font.start_char + 1).toNat
        (dumpBytesPerChar font).toNat, font.p.length⟩ ∧
    (List.range (font.end_char - font.start_char + 1).toNat).flatMap
        (fun k => (List.range (dumpBytesPerChar font).toNat).map
          (fun b => k * (dumpBytesPerChar font).toNat + b)) =
      List.range font.p.length ∧
    (∀ fontFile fontName fontSize dpi texts,
      dumpDefinitions font fontFile fontName fontSize dpi = .ok texts →
      ∃ pre post, texts = pre ++
        ["static __UG_FONT_DATA unsigned char fontBits_" ++ fontName ++ "[" ++
          toString (font.end_char - font.start_char + 1) ++ "][" ++
          toString (dumpBytesPerChar font) ++ "] = \x7b\n"] ++
        specBitsRows font (font.end_char - font.start_char + 1).toNat
          (dumpBytesPerChar font).toNat ++ post) ∧
    (∀ canOpen fontFile fontSize dpi,
      (font.widths.length : Int) = font.end_char - font.start_char + 1 →
      -2147483648 ≤ sizeAsInt fontSize → sizeAsInt fontSize ≤ 2147483647 →
      (afterLastSlash fontFile).utf8ByteSize < 80 →
      (artifactName fontFile font ".c").utf8ByteSize < 80 →
      canOpen (artifactName fontFile font ".c") = true →
      ∃ pre post rest, (dumpFont canOpen font fontFile fontSize dpi).1 =
        Event.fopen (artifactName fontFile font ".c") ::
        Event.fprintf (artifactName fontFile font ".c") (pre ++
          ["static __UG_FONT_DATA unsigned char fontBits_" ++
            artifactName fontFile font "" ++ "[" ++
            toString (font.end_char - font.start_char + 1) ++ "][" ++
            toString (dumpBytesPerChar font) ++ "] = \x7b\n"] ++
          specBitsRows font (font.end_char - font.start_char + 1).toNat
            (dumpBytesPerChar font).toNat ++ post) ::
        Event.fclose (artifactName fontFile font ".c") :: rest) := by
  have hq : dumpBytesPerChar font = (font.char_width + 7) / 8 * font.char_height :=
    dumpBytesPerChar_eq font hw
  have hb0 : 0 ≤ dumpBytesPerChar font := by
    rw [hq]; exact Int.mul_nonneg (by omega) hh
  have hr0 : 0 ≤ font.end_char - font.start_char + 1 := by omega
  have hlenN : font.p.length =
      (font.end_char - font.start_char + 1).toNat * (dumpBytesPerChar font).toNat := by
    have e : ((font.p.length : Nat) : Int) =
        (((font.end_char - font.start_char + 1).toNat *
          (dumpBytesPerChar font).toNat : Nat) : Int) := by
      push_cast
      rw [Int.toNat_of_nonneg hr0, Int.toNat_of_nonneg hb0]
      exact hlen
    exact_mod_cast e
  have hbits := dumpBits_spec font (font.end_char - font.start_char + 1).toNat
    (dumpBytesPerChar font).toNat (by omega) (by omega) hbytes hlenN
  refine ⟨?_, ?_, hbits, ?_, ?_, ?_⟩
  · have hc := bytesPerRow_ceil ⟨font.char_width, 0, 0⟩ hw
    have hs := bytesPerRow_spec ⟨font.char_width, 0, 0⟩ hw
    simp only at hc hs
    rw [← hc, hs, hq]
  · intro s e1 e2
    have hs := bytesPerRow_spec s (by omega)
    unfold bytesPerChar
    rw [hs, hq, e1, e2]
  · rw [row_indices, ← hlenN]
  · intro fontFile fontName fontSize dpi texts ht
    exact dumpDefinitions_rows font fontFile fontName fontSize dpi _ texts hbits ht
  · intro canOpen fontFile fontSize dpi hwidths hs1 hs2 h1 h2 hc
    obtain ⟨texts, ht⟩ := dumpDefinitions_returns font fontFile
      (artifactName fontFile font "") fontSize dpi hw hh hrange hbytes hlen hwidths
      ⟨hs1, hs2⟩
    obtain ⟨pre, post, hrows⟩ := dumpDefinitions_rows font fontFile
      (artifactName fontFile font "") fontSize dpi _ texts hbits ht
    simp only at hrows
    unfold dumpFont
    simp only
    rw [if_neg (by omega), hc, ht]
    by_cases hhd : canOpen (artifactName fontFile font ".h") = true
    · rw [hhd]
      refine ⟨pre, post, [Event.fopen (artifactName fontFile font ".h"),
        Event.fprintf (artifactName fontFile font ".h")
          (dumpDeclarations (artifactName fontFile font "")),
        Event.fclose (artifactName fontFile font ".h")], ?_⟩
      rw [← hrows]
      rfl
    · rw [Bool.not_eq_true] at hhd
      rw [hhd]
      refine ⟨pre, post, [], ?_⟩
      rw [← hrows]
      rfl

/-- C13 at a concrete font: the one converted from a face whose glyphs are one set pixel
(95 rows of one byte 0x01), dumped from `font.ttf` at size 8 with every file openable. -/
theorem emitted_bitmap_table_witness :
    dumpBits ⟨List.replicate 95 1, FONT_TYPE.FONT_TYPE_1BPP, 1, 1, 32, 126,
        List.replicate 95 1⟩ =
      .ok ⟨specBitsRows ⟨List.replicate 95 1, FONT_TYPE.FONT_TYPE_1BPP, 1, 1, 32, 126,
        List.replicate 95 1⟩ ((126 : Int) - 32 + 1).toNat
          (dumpBytesPerChar ⟨List.replicate 95 1, FONT_TYPE.FONT_TYPE_1BPP, 1, 1, 32, 126,
            List.replicate 95 1⟩).toNat, 95⟩ ∧
    ∃ pre post rest,
      (dumpFont (fun _ => true) ⟨List.replicate 95 1, FONT_TYPE.FONT_TYPE_1BPP, 1, 1, 32, 126,
        List.replicate 95 1⟩ "font.ttf" 8 0).1 =
      Event.fopen "font_1X1.c" ::
      Event.fprintf "font_1X1.c" (pre ++
        ["static __UG_FONT_DATA unsigned char fontBits_font_1X1[95][1] = \x7b\n"] ++
        specBitsRows ⟨List.replicate 95 1, FONT_TYPE.FONT_TYPE_1BPP, 1, 1, 32, 126,
          List.replicate 95 1⟩ 95 1 ++ post) ::
      Event.fclose "font_1X1.c" :: rest :=
  ⟨(emitted_bitmap_table ⟨List.replicate 95 1, FONT_TYPE.FONT_TYPE_1BPP, 1, 1, 32, 126,
      List.replicate 95 1⟩ (by decide) (by decide) (by decide) (by decide)
      (by decide)).2.2.1,
    (emitted_bitmap_table ⟨List.replicate 95 1, FONT_TYPE.FONT_TYPE_1BPP, 1, 1, 32, 126,
      List.replicate 95 1⟩ (by decide) (by decide) (by decide) (by decide)
      (by decide)).2.2.2.2.2 (fun _ => true) "font.ttf" 8 0
        (by decide) (by decide) (by decide) (by decide) (by decide) rfl⟩

/-- C14, refuted at a concrete input.  Two runs asked to dump the same font file at the
different pixel sizes 8.2 and 8.7, which the call of `FT_Set_Pixel_Sizes` both converts
to 8 so that FreeType renders the same glyphs, open the same files `font_1X1.c` and
`font_1X1.h`: the second run overwrites the artifacts of the first. -/
theorem naming_collision :
    sizeLow ≠ sizeHigh ∧
      (main (dumpAtSize sizeLow) (tableFreeType plainDots) (fun _ => true)).1.filter
          (fun e => e matches Event.fopen _) =
        [Event.fopen "font_1X1.c", Event.fopen "font_1X1.h"] ∧
      (main (dumpAtSize sizeHigh) (tableFreeType plainDots) (fun _ => true)).1.filter
          (fun e => e matches Event.fopen _) =
        [Event.fopen "font_1X1.c", Event.fopen "font_1X1.h"] := by
  decide

/-- C14 as amended.  The font name and the output file names of `dumpFont` are
`<baseName>_<char_width>X<char_height>` (followed by `.c` or `.h` for the files), `baseName`
being the font file path with directory and suffix stripped: every path splits as
`dir ++ name ++ ext`, with `dir` empty or ending with a slash, `name` free of slashes and
dots, and `ext` free of slashes and empty or starting with a dot, and for every such split
the names start with `name`; `dumpFont`, when it returns, has opened exactly those two
files; for two fonts with non-negative cell sizes converted from the same font file the
names are equal exactly when the two cells have the same width and the same height,
whatever sizes were requested. -/
theorem artifact_naming (fontFile : String) (f1 f2 : UG_FONT)
    (hw1 : 0 ≤ f1.char_width) (hh1 : 0 ≤ f1.char_height)
    (hw2 : 0 ≤ f2.char_width) (hh2 : 0 ≤ f2.char_height) :
    (∃ dir name ext : List Char, fontFile.data = dir ++ (name ++ ext) ∧
      (dir = [] ∨ ∃ d, dir = d ++ ['/']) ∧ '/' ∉ name ∧ '.' ∉ name ∧ '/' ∉ ext ∧
      (ext = [] ∨ ∃ e, ext = '.' :: e)) ∧
    (∀ dir name ext : List Char, fontFile.data = dir ++ (name ++ ext) →
      (dir = [] ∨ ∃ d, dir = d ++ ['/']) → '/' ∉ name → '.' ∉ name → '/' ∉ ext →
      (ext = [] ∨ ∃ e, ext = '.' :: e) →
      ∀ suffix, (artifactName fontFile f1 suffix).data =
        name ++ '_' :: ((toString f1.char_width).data ++
          'X' :: ((toString f1.char_height).data ++ suffix.data))) ∧
    (∀ suffix, artifactName fontFile f1 suffix = artifactName fontFile f2 suffix ↔
      f1.char_width = f2.char_width ∧ f1.char_height = f2.char_height) ∧
    (∀ canOpen fontSize dpi, (dumpFont canOpen f1 fontFile fontSize dpi).2 = .ok () →
      ∃ texts, (dumpFont canOpen f1 fontFile fontSize dpi).1 =
        [Event.fopen (artifactName fontFile f1 ".c"),
          Event.fprintf (artifactName fontFile f1 ".c") texts,
          Event.fclose (artifactName fontFile f1 ".c"),
          Event.fopen (artifactName fontFile f1 ".h"),
          Event.fprintf (artifactName fontFile f1 ".h")
            (dumpDeclarations (artifactName fontFile f1 "")),
          Event.fclose (artifactName fontFile f1 ".h")]) ∧
    (∀ suffix, (artifactName fontFile f1 suffix).data =
      baseName fontFile ++ '_' :: ((toString f1.char_width).data ++
        'X' :: ((toString f1.char_height).data ++ suffix.data))) := by
  have hdata : ∀ suffix, (artifactName fontFile f1 suffix).data =
      baseName fontFile ++ '_' :: ((toString f1.char_width).data ++
        'X' :: ((toString f1.char_height).data ++ suffix.data)) := by
    intro suffix
    simp only [artifactName, String.data_append, List.append_assoc]
    rfl
  refine ⟨baseName_split fontFile, ?_, ?_, ?_, hdata⟩
  · intro dir name ext hsplit hdir hn1 hn2 he1 he2 suffix
    rw [hdata suffix, baseName_eq fontFile dir name ext hsplit hdir hn1 hn2 he1 he2]
  · intro suffix
    constructor
    · exact artifactName_injective fontFile suffix f1 f2 hw1 hh1 hw2 hh2
    · rintro ⟨e1, e2⟩
      unfold artifactName
      rw [e1, e2]
  · intro canOpen fontSize dpi hok
    unfold dumpFont at hok ⊢
    simp only at hok ⊢
    split at hok
    · cases hok
    · rename_i hfit
      rw [if_neg hfit]
      split at hok
      · cases hok
      · rename_i hc
        rw [if_neg hc]
        split at hok
        · cases hok
        · rename_i texts ht
          split at hok
          · cases hok
          · rename_i hh
            exact ⟨texts, by rw [if_neg hh]⟩

/-- C14 as amended, at two concrete fonts converted from `fonts/font.ttf`: a cell of 1 by
1 and a cell of 6 by 8; the path splits as `fonts/`, `font`, `.ttf`, and the `.c` file of
the first font is `font_1X1.c`. -/
theorem artifact_naming_witness :
    (artifactName "fonts/font.ttf"
        ⟨List.replicate 95 1, FONT_TYPE.FONT_TYPE_1BPP, 1, 1, 32, 126, List.replicate 95 1⟩
        ".c" =
      artifactName "fonts/font.ttf"
        ⟨List.replicate 760 0, FONT_TYPE.FONT_TYPE_1BPP, 6, 8, 32, 126, List.replicate 95 0⟩
        ".c" ↔ (1 : Int) = 6 ∧ (1 : Int) = 8) ∧
    (artifactName "fonts/font.ttf"
        ⟨List.replicate 95 1, FONT_TYPE.FONT_TYPE_1BPP, 1, 1, 32, 126, List.replicate 95 1⟩
        ".c").data =
      "font".data ++ '_' :: ((toString (1 : Int)).data ++
        'X' :: ((toString (1 : Int)).data ++ ".c".data)) :=
  ⟨(artifact_naming "fonts/font.ttf"
      ⟨List.replicate 95 1, FONT_TYPE.FONT_TYPE_1BPP, 1, 1, 32, 126, List.replicate 95 1⟩
      ⟨List.replicate 760 0, FONT_TYPE.FONT_TYPE_1BPP, 6, 8, 32, 126, List.replicate 95 0⟩
      (by decide) (by decide) (by decide) (by decide)).2.2.1 ".c",
    (artifact_naming "fonts/font.ttf"
      ⟨List.replicate 95 1, FONT_TYPE.FONT_TYPE_1BPP, 1, 1, 32, 126, List.replicate 95 1⟩
      ⟨List.replicate 760 0, FONT_TYPE.FONT_TYPE_1BPP, 6, 8, 32, 126, List.replicate 95 0⟩
      (by decide) (by decide) (by decide) (by decide)).2.1
      "fonts/".data "font".data ".ttf".data rfl (Or.inr ⟨"fonts".data, rfl⟩)
      (by decide) (by decide) (by decide) (Or.inr ⟨"ttf".data, rfl⟩) ".c"⟩

end Ttf2ugui
